import Mathlib

/-!
l80: a two-pass linker for flat 8080 binaries

A shallow embedding of `src/l80.c` and a verification of its linking behaviour.

Conventions of the embedding:

* a byte read by `fgetc` is a `Nat` (a value `0..255`); an input file is the list of its
  bytes and `fgetc` returning `EOF` is the empty list;
* the singly linked `collection_t` list that starts at the global `head` is a `List Sym`,
  in list order;
* a name buffer `char symbol[16]`, zero-filled by `memset` and then written at indices
  `0 .. j-1`, is the list of the `j` bytes written; `strlen`, `strcmp` and `strdup` see the
  C string `cstr symbol`, the bytes before the first NUL;
* every `while` loop of a pass is one recursive function over the unread bytes of the file;
  a `return` inside the loops ends the scan with `Scan.stop` (return 0) or `Scan.fail`
  (return `error(...)`), running off the end of the file is `Scan.eof`;
* `error` prints a diagnostic and returns 1: the diagnostic printed is kept as an `Err`;
* `malloc` and `strdup` are taken to succeed, and `fopen(name, "r")` gives the bytes of
  the file as they are (no text-mode translation).
-/

namespace L80

/-- Line 24: `#define BIN_MAX 0xff00`. -/
def BIN_MAX : Nat := 0xff00

/-- The `limits.h` constant `USHRT_MAX` of a 16-bit `unsigned short`, `0xFFFF`. -/
def USHRT_MAX : Nat := 65535

/-- The diagnostics of the program, one per `error(...)` call site (and the usage line). -/
inductive Err
  | usage
  | badEnding
  | outputNameTooLong
  | couldNotOpenOutput
  | couldNotOpenInput
  | invalidDataByte
  | exceeds65280
  | unterminatedSymbol
  | emptySymbol
  | duplicateSymbol (symbol : List Nat)
  | unknownControlByte (ch : Nat)
  | binaryTooLarge
  | unterminatedDeclaration
  | unterminatedReference
  | undefinedReference (symbol : List Nat)
deriving DecidableEq, Repr

/-- Lines 40-54: `error` writes the diagnostic and returns 1. -/
def error (_ : Err) : Nat := 1

/-- Lines 29-34: one `collection_t` entry, the name (a C string) and its address. -/
structure Sym where
  symbol : List Nat
  addr : Nat
deriving DecidableEq, Repr

/-- Lines 275-283: the entry that `main` preloads as `head`, named "@" with address 0. -/
def sentinel : Sym := ⟨[64], 0⟩

/-- The C string at the start of a zero-filled buffer: the bytes before the first NUL. -/
def cstr (buf : List Nat) : List Nat := buf.takeWhile (fun c => c != 0)

/-- Lines 93-94 and 200-201: `if (j < sizeof(symbol) - 1) symbol[j++] = ch;`. -/
def store (symbol : List Nat) (ch : Nat) : List Nat :=
  if symbol.length < 16 - 1 then symbol ++ [ch] else symbol

/-- Lines 102-108 and 204-211: walk the list from `head`, stop at the first entry whose
name compares equal (`strcmp`) to `symbol`. -/
def lookup (symbol : List Nat) : List Sym → Option Sym
  | [] => none
  | curr :: next => if symbol = curr.symbol then some curr else lookup symbol next

/-- How the scan of one input file (or of the whole file list) ends. -/
inductive Scan (σ : Type)
  | eof (st : σ)
  | stop (st : σ)
  | fail (e : Err)
deriving DecidableEq, Repr

mutual
/-- Lines 72-148: the `while ((ch = fgetc(fp)) != EOF) switch (ch)` loop of pass 1 on the
unread bytes `fp`, with the collection `head` and the address counter `addr`. -/
def collect1Ctl : List Nat → List Sym → Nat → Scan (List Sym × Nat)
  | [], head, addr => .eof (head, addr)
  | ch :: fp, head, addr =>
    if ch = 0 then
      match fp with
      | [] => .fail .invalidDataByte
      | _ :: fp2 =>
        if addr + 1 > USHRT_MAX then .fail .exceeds65280
        else collect1Ctl fp2 head (addr + 1)
    else if ch = 1 then collect1Decl fp [] head addr
    else if ch = 2 then collect1Ref fp head addr
    else if ch = 3 then collect1Ctl fp head addr
    else if ch = 26 then .stop (head, addr)
    else .fail (.unknownControlByte ch)
termination_by structural fp => fp
/-- Lines 89-124: the name loop of a declaration with the bytes stored so far, then the
empty check, the duplicate check and the append at the end of the list. -/
def collect1Decl : List Nat → List Nat → List Sym → Nat → Scan (List Sym × Nat)
  | [], _, _, _ => .fail .unterminatedSymbol
  | ch :: fp, symbol, head, addr =>
    if ch = 1 then
      if (cstr symbol).length = 0 then .fail .emptySymbol
      else
        match lookup (cstr symbol) head with
        | some _ => .fail (.duplicateSymbol (cstr symbol))
        | none => collect1Ctl fp (head ++ [⟨cstr symbol, addr⟩]) addr
    else collect1Decl fp (store symbol ch) head addr
termination_by structural fp => fp
/-- Lines 127-137: a reference in pass 1, skipped up to its closing byte, counts for 2. -/
def collect1Ref : List Nat → List Sym → Nat → Scan (List Sym × Nat)
  | [], _, _ => .fail .unterminatedSymbol
  | ch :: fp, head, addr =>
    if ch = 2 then
      if addr + 2 > USHRT_MAX then .fail .exceeds65280
      else collect1Ctl fp head (addr + 2)
    else collect1Ref fp head addr
termination_by structural fp => fp
end

/-- Lines 68-151: the `for` loop of pass 1 over the input files, each the result of its
`fopen` (`none` when it cannot be opened). -/
def collect1Files : List (Option (List Nat)) → List Sym → Nat → Scan (List Sym × Nat)
  | [], head, addr => .eof (head, addr)
  | none :: _, _, _ => .fail .couldNotOpenInput
  | some fp :: rest, head, addr =>
    match collect1Ctl fp head addr with
    | .eof (head2, addr2) => collect1Files rest head2 addr2
    | .stop st => .stop st
    | .fail e => .fail e

/-- Lines 59-154: pass 1. On `return 0` the result is the collection and the final value
of the local counter `addr`, which starts at 0x100. -/
def collect1 (files : List (Option (List Nat))) (head : List Sym) :
    Except Err (List Sym × Nat) :=
  match collect1Files files head 0x100 with
  | .eof st => .ok st
  | .stop st => .ok st
  | .fail e => .error e

mutual
/-- Lines 169-235: the `while`/`switch` loop of pass 2 on the unread bytes, with the bytes
`fq` written to the output so far and the counter `bin`. -/
def process2Ctl (head : List Sym) : List Nat → List Nat → Nat → Scan (List Nat × Nat)
  | [], fq, bin => .eof (fq, bin)
  | ch :: fp, fq, bin =>
    if ch = 0 then
      match fp with
      | [] => .fail .invalidDataByte
      | ch2 :: fp2 =>
        if bin = BIN_MAX then .fail .binaryTooLarge
        else process2Ctl head fp2 (fq ++ [ch2]) (bin + 1)
    else if ch = 1 then process2Decl head fp fq bin
    else if ch = 2 then process2Ref head fp [] fq bin
    else if ch = 3 then process2Ctl head fp fq bin
    else if ch = 26 then .stop (fq, bin)
    else .fail (.unknownControlByte ch)
termination_by structural fp => fp
/-- Lines 183-188: a declaration in pass 2, skipped up to its closing byte. -/
def process2Decl (head : List Sym) : List Nat → List Nat → Nat → Scan (List Nat × Nat)
  | [], _, _ => .fail .unterminatedDeclaration
  | ch :: fp, fq, bin =>
    if ch = 1 then process2Ctl head fp fq bin
    else process2Decl head fp fq bin
termination_by structural fp => fp
/-- Lines 191-224: the name loop of a reference, the lookup from `head`, and the two
address bytes, low byte first, each followed by the `bin++ == BIN_MAX` check. -/
def process2Ref (head : List Sym) :
    List Nat → List Nat → List Nat → Nat → Scan (List Nat × Nat)
  | [], _, _, _ => .fail .unterminatedReference
  | ch :: fp, symbol, fq, bin =>
    if ch = 2 then
      match lookup (cstr symbol) head with
      | none => .fail (.undefinedReference (cstr symbol))
      | some curr =>
        if bin = BIN_MAX then .fail .binaryTooLarge
        else if bin + 1 = BIN_MAX then .fail .binaryTooLarge
        else process2Ctl head fp
          (fq ++ [curr.addr &&& 0xff, (curr.addr >>> 8) &&& 0xff]) (bin + 2)
    else process2Ref head fp (store symbol ch) fq bin
termination_by structural fp => fp
end

/-- Lines 165-238: the `for` loop of pass 2 over the input files. -/
def process2Files (head : List Sym) :
    List (Option (List Nat)) → List Nat → Nat → Scan (List Nat × Nat)
  | [], fq, bin => .eof (fq, bin)
  | none :: _, _, _ => .fail .couldNotOpenInput
  | some fp :: rest, fq, bin =>
    match process2Ctl head fp fq bin with
    | .eof (fq2, bin2) => process2Files head rest fq2 bin2
    | .stop st => .stop st
    | .fail e => .fail e

/-- Lines 156-241: pass 2. On `return 0` the result is what was written to `fq`; the bytes
written before an error are not kept, `main` unlinks the file on every error. -/
def process2 (files : List (Option (List Nat))) (head : List Sym) : Except Err (List Nat) :=
  match process2Files head files [] 0 with
  | .eof st => .ok st.1
  | .stop st => .ok st.1
  | .fail e => .error e

/-- Lines 288-289: `if ((ret = collect1(argc, argv)) == 0) ret = process2(argc, argv, fp);`
with the collection that pass 1 leaves in `head`. -/
def link (files : List (Option (List Nat))) (head : List Sym) : Except Err (List Nat) :=
  match collect1 files head with
  | .ok (head2, _) => process2 files head2
  | .error e => .error e

/-- Lines 291-294: what is left in the output file once `main` has closed it and unlinked
it when `ret != 0`; `none` is an absent file. -/
def kept (ret : Except Err (List Nat)) : Option (List Nat) :=
  match ret with
  | .ok image => some image
  | .error _ => none

/-- Library function `strrchr(s, c)`: the suffix of `s` that starts at the last occurrence
of `c`, and `none` (the NULL pointer) when `c` does not occur in `s`. -/
def strrchr : List Char → Char → Option (List Char)
  | [], _ => none
  | x :: xs, c =>
    match strrchr xs c with
    | some t => some t
    | none => if x = c then some (x :: xs) else none

/-- Lines 259-265: the check of the endings of `argv[2..]`. `strcmp` on the NULL pointer
that `strrchr` returns for a name without a dot is undefined behaviour: `none`. -/
def checkEndings : List String → Option (Except Err Unit)
  | [] => some (.ok ())
  | arg :: rest =>
    match strrchr arg.data '.' with
    | none => none
    | some ending =>
      if ending ≠ ".obj".data ∧ ending ≠ ".OBJ".data then
        if ending ≠ ".lib".data ∧ ending ≠ ".LIB".data then some (.error .badEnding)
        else checkEndings rest
      else checkEndings rest

/-- The files `main` works on: `content name` is the content of the file `name` when it
exists, `creatable name` tells whether `fopen(name, "w+")` succeeds. -/
structure Disk where
  content : String → Option (List Nat)
  creatable : String → Bool

/-- The file `name` holds `bytes` (created or overwritten). -/
def Disk.write (disk : Disk) (name : String) (bytes : List Nat) : Disk :=
  { disk with content := fun n => if n = name then some bytes else disk.content n }

/-- Library function `unlink(name)`: the file is gone. -/
def Disk.unlink (disk : Disk) (name : String) : Disk :=
  { disk with content := fun n => if n = name then none else disk.content n }

/-- What a run of `main` comes to: the value returned, the diagnostic written to stderr
and the files afterwards; or no defined behaviour at all. -/
inductive Outcome
  | undefined
  | returned (code : Nat) (diag : Option Err) (disk : Disk)

/-- Lines 267-273: the output name, `argv[1]` cut by `strncpy` to the 12 characters that
fit `char bin[13]`, refused when longer than 8, then ".com" appended by `strncat`. -/
def outputName (base : String) : Except Err String :=
  let bin := base.data.take (13 - 1)
  if bin.length > 8 then .error .outputNameTooLong
  else .ok (String.mk (bin ++ ".com".data.take (13 - 1)))

/-- Lines 252-286 of `main`: the argument count, the endings of the input names, the
output name and the opening of the output file. `some (.ok bin)` when the output file
`bin` has been opened; `some (.error e)` when `main` returns before that with the
diagnostic `e` (the usage line is written with `fprintf` and 1 is returned, as `error`
does); `none` when the behaviour is undefined. -/
def startup (disk : Disk) (argv : List String) : Option (Except Err String) :=
  if argv.length < 3 then some (.error .usage)
  else
    match checkEndings (argv.drop 2) with
    | none => none
    | some (.error e) => some (.error e)
    | some (.ok _) =>
      match outputName (argv.getD 1 "") with
      | .error e => some (.error e)
      | .ok bin =>
        if disk.creatable bin = false then some (.error .couldNotOpenOutput)
        else some (.ok bin)

/-- Lines 243-297: `main` on the argument vector `argv` (with `argv[0]`), `argc` being its
length. The output file is created empty by `fopen(bin, "w+")`, the passes open the input
files, and the output file is closed with the image or unlinked when `ret != 0`. -/
def main (disk : Disk) (argv : List String) : Outcome :=
  match startup disk argv with
  | none => .undefined
  | some (.error e) => .returned (error e) (some e) disk
  | some (.ok bin) =>
    let disk1 := disk.write bin []
    match link ((argv.drop 2).map disk1.content) [sentinel] with
    | .ok image => .returned 0 none (disk1.write bin image)
    | .error e => .returned (error e) (some e) (disk1.unlink bin)

/-! ## The object-stream format

The record structure that both passes read: the framing of spec §4.1 as the two passes
implement it. A name is the raw byte sequence between its two delimiters. -/

/-- The records that carry data: data byte, declaration, reference, marker. -/
inductive Record
  | dataByte (b : Nat)
  | declaration (name : List Nat)
  | reference (name : List Nat)
  | marker
deriving DecidableEq, Repr

/-- How the decoding of a stream ends: at the end of the source on a record boundary, at
an EndOfModule control byte (0x1A), or at a framing error. -/
inductive Stop
  | endOfInput
  | endOfModule
  | truncatedData
  | unterminatedDeclaration
  | unterminatedReference
  | unknownControlByte (ch : Nat)
deriving DecidableEq, Repr

/-- Put a decoded record in front of what the rest of the stream decodes to. -/
def Record.andThen (r : Record) (d : List Record × Stop) : List Record × Stop :=
  (r :: d.1, d.2)

mutual
/-- Decoder at a control-byte position: the records up to the first EndOfModule byte,
framing error or the end of the stream, and which of these ended the decoding. -/
def decodeCtl : List Nat → List Record × Stop
  | [] => ([], .endOfInput)
  | ch :: s =>
    if ch = 0 then
      match s with
      | [] => ([], .truncatedData)
      | b :: s2 => (Record.dataByte b).andThen (decodeCtl s2)
    else if ch = 1 then decodeDecl s []
    else if ch = 2 then decodeRef s []
    else if ch = 3 then Record.marker.andThen (decodeCtl s)
    else if ch = 26 then ([], .endOfModule)
    else ([], .unknownControlByte ch)
termination_by structural s => s
/-- Decoder inside a declaration, `name` being the name bytes read so far. -/
def decodeDecl : List Nat → List Nat → List Record × Stop
  | [], _ => ([], .unterminatedDeclaration)
  | ch :: s, name =>
    if ch = 1 then (Record.declaration name).andThen (decodeCtl s)
    else decodeDecl s (name ++ [ch])
termination_by structural s => s
/-- Decoder inside a reference, `name` being the name bytes read so far. -/
def decodeRef : List Nat → List Nat → List Record × Stop
  | [], _ => ([], .unterminatedReference)
  | ch :: s, name =>
    if ch = 2 then (Record.reference name).andThen (decodeCtl s)
    else decodeRef s (name ++ [ch])
termination_by structural s => s
end

/-- The records of a list of streams decoded in order, each stream from its start: a
stream that ends on a record boundary is followed by the next one, anything else ends
the decoding. -/
def decodeFiles : List (List Nat) → List Record × Stop
  | [] => ([], .endOfInput)
  | s :: rest =>
    match decodeCtl s with
    | (rs, .endOfInput) => (rs ++ (decodeFiles rest).1, (decodeFiles rest).2)
    | d => d

/-- The symbol a name stands for: its first 15 bytes, read as a C string. -/
def symbolOf (name : List Nat) : List Nat := cstr (name.take 15)

/-- Image bytes a record stands for: 1 for a data byte, 2 for a reference, else 0. -/
def Record.bytes : Record → Nat
  | .dataByte _ => 1
  | .reference _ => 2
  | _ => 0

/-- Image bytes a record sequence stands for. -/
def size (rs : List Record) : Nat := (rs.map Record.bytes).sum

/-- Number of DataByte records. -/
def countData (rs : List Record) : Nat :=
  rs.countP (fun r => match r with | .dataByte _ => true | _ => false)

/-- Number of Reference records. -/
def countRef (rs : List Record) : Nat :=
  rs.countP (fun r => match r with | .reference _ => true | _ => false)

/-- What a record adds to the image given the collection `head`: the payload of a data
byte; for a reference the address recorded for its symbol, low byte then high byte
(`none` when the symbol is not in the collection); nothing for the other records. -/
def contribution (head : List Sym) : Record → Option (List Nat)
  | .dataByte b => some [b]
  | .reference name =>
    match lookup (symbolOf name) head with
    | some e => some [e.addr % 256, e.addr / 256]
    | none => none
  | _ => some []

/-- The concatenation, in order, of the contributions of the records. -/
def imageOf (head : List Sym) : List Record → Option (List Nat)
  | [] => some []
  | r :: rs =>
    match contribution head r, imageOf head rs with
    | some c, some cs => some (c ++ cs)
    | _, _ => none

/-- Pass 1 told on records: what `collect1Ctl` does with a stream that decodes to the
records `rs` and ends with `stop`. -/
def pass1Records : List Record → Stop → List Sym → Nat → Scan (List Sym × Nat)
  | [], stop, head, addr =>
    match stop with
    | .endOfInput => .eof (head, addr)
    | .endOfModule => .stop (head, addr)
    | .truncatedData => .fail .invalidDataByte
    | .unterminatedDeclaration => .fail .unterminatedSymbol
    | .unterminatedReference => .fail .unterminatedSymbol
    | .unknownControlByte ch => .fail (.unknownControlByte ch)
  | .dataByte _ :: rs, stop, head, addr =>
    if addr + 1 > USHRT_MAX then .fail .exceeds65280
    else pass1Records rs stop head (addr + 1)
  | .declaration name :: rs, stop, head, addr =>
    if (symbolOf name).length = 0 then .fail .emptySymbol
    else
      match lookup (symbolOf name) head with
      | some _ => .fail (.duplicateSymbol (symbolOf name))
      | none => pass1Records rs stop (head ++ [⟨symbolOf name, addr⟩]) addr
  | .reference _ :: rs, stop, head, addr =>
    if addr + 2 > USHRT_MAX then .fail .exceeds65280
    else pass1Records rs stop head (addr + 2)
  | .marker :: rs, stop, head, addr => pass1Records rs stop head addr

/-- Pass 2 told on records: what `process2Ctl` does with a stream that decodes to the
records `rs` and ends with `stop`. -/
def pass2Records (head : List Sym) :
    List Record → Stop → List Nat → Nat → Scan (List Nat × Nat)
  | [], stop, fq, bin =>
    match stop with
    | .endOfInput => .eof (fq, bin)
    | .endOfModule => .stop (fq, bin)
    | .truncatedData => .fail .invalidDataByte
    | .unterminatedDeclaration => .fail .unterminatedDeclaration
    | .unterminatedReference => .fail .unterminatedReference
    | .unknownControlByte ch => .fail (.unknownControlByte ch)
  | .dataByte b :: rs, stop, fq, bin =>
    if bin = BIN_MAX then .fail .binaryTooLarge
    else pass2Records head rs stop (fq ++ [b]) (bin + 1)
  | .declaration _ :: rs, stop, fq, bin => pass2Records head rs stop fq bin
  | .reference name :: rs, stop, fq, bin =>
    match lookup (symbolOf name) head with
    | none => .fail (.undefinedReference (symbolOf name))
    | some curr =>
      if bin = BIN_MAX then .fail .binaryTooLarge
      else if bin + 1 = BIN_MAX then .fail .binaryTooLarge
      else pass2Records head rs stop
        (fq ++ [curr.addr &&& 0xff, (curr.addr >>> 8) &&& 0xff]) (bin + 2)
  | .marker :: rs, stop, fq, bin => pass2Records head rs stop fq bin

/-- The stream of `n` DataByte records with payload `b`. -/
def dataStream (b : Nat) : Nat → List Nat
  | 0 => []
  | n + 1 => 0 :: b :: dataStream b n

/-- The state a scan returns 0 with, at the end of the input or at an EndOfModule byte;
`none` for a scan that returns an error. -/
def Scan.final {σ : Type} : Scan σ → Option σ
  | .eof st => some st
  | .stop st => some st
  | .fail _ => none

/-- The entries that the declarations among `rs` stand for, in order, when the counter is
`addr` before the first record: each with the counter value at its declaration. -/
def declared : Nat → List Record → List Sym
  | _, [] => []
  | addr, .dataByte _ :: rs => declared (addr + 1) rs
  | addr, .declaration name :: rs => ⟨symbolOf name, addr⟩ :: declared addr rs
  | addr, .reference _ :: rs => declared (addr + 2) rs
  | addr, .marker :: rs => declared addr rs

/-- The stream that holds each byte of `bs` as a DataByte record: the pair `0x00`, byte. -/
def encodeData : List Nat → List Nat
  | [] => []
  | b :: bs => 0 :: b :: encodeData bs

/-! ## Refinement: the passes are folds over the decoded records -/

theorem store_take (name : List Nat) (ch : Nat) :
    store (name.take 15) ch = (name ++ [ch]).take 15 := by
  unfold store
  by_cases h : name.length < 15
  · have h1 : (name.take 15) = name := List.take_of_length_le (by omega)
    have h2 : (name ++ [ch]).take 15 = name ++ [ch] :=
      List.take_of_length_le (by simp; omega)
    rw [h1, h2, if_pos (by simpa using h)]
  · have h1 : (name.take 15).length = 15 := by simp; omega
    have h2 : (name ++ [ch]).take 15 = name.take 15 :=
      List.take_append_of_le_length (by omega)
    rw [h2, if_neg (by omega)]


theorem collect1_refines_aux (n : Nat) : ∀ s : List Nat, s.length ≤ n →
    (∀ head addr, collect1Ctl s head addr
        = pass1Records (decodeCtl s).1 (decodeCtl s).2 head addr) ∧
    (∀ name head addr, collect1Decl s (name.take 15) head addr
        = pass1Records (decodeDecl s name).1 (decodeDecl s name).2 head addr) ∧
    (∀ name head addr, collect1Ref s head addr
        = pass1Records (decodeRef s name).1 (decodeRef s name).2 head addr) := by
  induction n with
  | zero =>
    intro s hs
    have : s = [] := List.length_eq_zero.mp (by omega)
    subst this
    simp [collect1Ctl, collect1Decl, collect1Ref, decodeCtl, decodeDecl, decodeRef,
      pass1Records]
  | succ n ih =>
    intro s hs
    cases s with
    | nil =>
      simp [collect1Ctl, collect1Decl, collect1Ref, decodeCtl, decodeDecl, decodeRef,
        pass1Records]
    | cons ch s =>
      have hlen : s.length ≤ n := by simpa using hs
      obtain ⟨ihC, ihD, ihR⟩ := ih s hlen
      refine ⟨?_, ?_, ?_⟩
      · intro head addr
        cases s with
        | nil =>
          have hD := ihD [] head addr
          have hR := ihR [] head addr
          have hC := ihC head addr
          simp only [collect1Ctl, decodeCtl]
          split_ifs <;> simp_all [pass1Records, Record.andThen]
        | cons b s2 =>
          have h2 : s2.length ≤ n := by simp at hlen; omega
          have hD := ihD [] head addr
          have hR := ihR [] head addr
          have hC := ihC head addr
          have hC2 := (ih s2 h2).1 head (addr + 1)
          simp only [collect1Ctl, decodeCtl]
          split_ifs <;> simp_all [pass1Records, Record.andThen]
          rw [if_neg (by omega)]
      · intro name head addr
        rw [collect1Decl, decodeDecl]
        by_cases h1 : ch = 1
        · rw [if_pos h1, if_pos h1]
          simp only [Record.andThen, pass1Records, symbolOf]
          rw [ihC]
        · rw [if_neg h1, if_neg h1, store_take]
          exact ihD (name ++ [ch]) head addr
      · intro name head addr
        rw [collect1Ref, decodeRef]
        by_cases h2 : ch = 2
        · rw [if_pos h2, if_pos h2]
          simp only [Record.andThen, pass1Records]
          rw [ihC]
        · rw [if_neg h2, if_neg h2]
          exact ihR (name ++ [ch]) head addr


theorem process2_refines_aux (tbl : List Sym) (n : Nat) : ∀ s : List Nat, s.length ≤ n →
    (∀ fq bin, process2Ctl tbl s fq bin
        = pass2Records tbl (decodeCtl s).1 (decodeCtl s).2 fq bin) ∧
    (∀ name fq bin, process2Decl tbl s fq bin
        = pass2Records tbl (decodeDecl s name).1 (decodeDecl s name).2 fq bin) ∧
    (∀ name fq bin, process2Ref tbl s (name.take 15) fq bin
        = pass2Records tbl (decodeRef s name).1 (decodeRef s name).2 fq bin) := by
  induction n with
  | zero =>
    intro s hs
    have : s = [] := List.length_eq_zero.mp (by omega)
    subst this
    simp [process2Ctl, process2Decl, process2Ref, decodeCtl, decodeDecl, decodeRef,
      pass2Records]
  | succ n ih =>
    intro s hs
    cases s with
    | nil =>
      simp [process2Ctl, process2Decl, process2Ref, decodeCtl, decodeDecl, decodeRef,
        pass2Records]
    | cons ch s =>
      have hlen : s.length ≤ n := by simpa using hs
      obtain ⟨ihC, ihD, ihR⟩ := ih s hlen
      refine ⟨?_, ?_, ?_⟩
      · intro fq bin
        cases s with
        | nil =>
          have hD := ihD [] fq bin
          have hR := ihR [] fq bin
          have hC := ihC fq bin
          simp only [process2Ctl, decodeCtl]
          split_ifs <;> simp_all [pass2Records, Record.andThen]
        | cons b s2 =>
          have h2 : s2.length ≤ n := by simp at hlen; omega
          have hD := ihD [] fq bin
          have hR := ihR [] fq bin
          have hC := ihC fq bin
          have hC2 := (ih s2 h2).1 (fq ++ [b]) (bin + 1)
          simp only [process2Ctl, decodeCtl]
          split_ifs <;> simp_all [pass2Records, Record.andThen]
      · intro name fq bin
        rw [process2Decl, decodeDecl]
        by_cases h1 : ch = 1
        · rw [if_pos h1, if_pos h1]
          simp only [Record.andThen, pass2Records]
          rw [ihC]
        · rw [if_neg h1, if_neg h1]
          exact ihD (name ++ [ch]) fq bin
      · intro name fq bin
        rw [process2Ref, decodeRef]
        by_cases h2 : ch = 2
        · rw [if_pos h2, if_pos h2]
          simp only [Record.andThen, pass2Records, symbolOf]
          cases lookup (cstr (List.take 15 name)) tbl with
          | none => rfl
          | some curr => simp only [ihC]
        · rw [if_neg h2, if_neg h2, store_take]
          exact ihR (name ++ [ch]) fq bin

theorem collect1Ctl_eq (s : List Nat) (head : List Sym) (addr : Nat) :
    collect1Ctl s head addr = pass1Records (decodeCtl s).1 (decodeCtl s).2 head addr :=
  (collect1_refines_aux s.length s (Nat.le_refl _)).1 head addr

theorem process2Ctl_eq (tbl : List Sym) (s fq : List Nat) (bin : Nat) :
    process2Ctl tbl s fq bin = pass2Records tbl (decodeCtl s).1 (decodeCtl s).2 fq bin :=
  (process2_refines_aux tbl s.length s (Nat.le_refl _)).1 fq bin

/-- Records in sequence: the fold over `rs ++ rs2` runs `rs` to its end, then `rs2`. -/
theorem pass1Records_append (rs rs2 : List Record) (stop : Stop) :
    ∀ head addr, pass1Records (rs ++ rs2) stop head addr =
      match pass1Records rs .endOfInput head addr with
      | .eof st => pass1Records rs2 stop st.1 st.2
      | .stop st => .stop st
      | .fail e => .fail e := by
  induction rs with
  | nil => intro head addr; simp [pass1Records]
  | cons r rs ih =>
    intro head addr
    cases r with
    | dataByte b =>
      simp only [List.cons_append, pass1Records]
      split_ifs
      · rfl
      · exact ih _ _
    | declaration name =>
      simp only [List.cons_append, pass1Records]
      split_ifs
      · rfl
      · cases lookup (symbolOf name) head with
        | some e => rfl
        | none => exact ih _ _
    | reference name =>
      simp only [List.cons_append, pass1Records]
      split_ifs
      · rfl
      · exact ih _ _
    | marker =>
      simp only [List.cons_append, pass1Records]
      exact ih _ _

theorem pass2Records_append (tbl : List Sym) (rs rs2 : List Record) (stop : Stop) :
    ∀ fq bin, pass2Records tbl (rs ++ rs2) stop fq bin =
      match pass2Records tbl rs .endOfInput fq bin with
      | .eof st => pass2Records tbl rs2 stop st.1 st.2
      | .stop st => .stop st
      | .fail e => .fail e := by
  induction rs with
  | nil => intro fq bin; simp [pass2Records]
  | cons r rs ih =>
    intro fq bin
    cases r with
    | dataByte b =>
      simp only [List.cons_append, pass2Records]
      split_ifs
      · rfl
      · exact ih _ _
    | declaration name =>
      simp only [List.cons_append, pass2Records]
      exact ih _ _
    | reference name =>
      simp only [List.cons_append, pass2Records]
      cases lookup (symbolOf name) tbl with
      | none => rfl
      | some e =>
        simp only []
        split_ifs
        · rfl
        · rfl
        · exact ih _ _
    | marker =>
      simp only [List.cons_append, pass2Records]
      exact ih _ _

theorem pass1Records_eof (rs : List Record) (stop : Stop) : ∀ head addr st,
    pass1Records rs stop head addr = .eof st → stop = .endOfInput := by
  induction rs with
  | nil => intro head addr st h; cases stop <;> simp_all [pass1Records]
  | cons r rs ih =>
    intro head addr st h
    cases r with
    | dataByte b =>
      simp only [pass1Records] at h
      split_ifs at h
      exact ih _ _ _ h
    | declaration name =>
      simp only [pass1Records] at h
      split_ifs at h
      cases hl : lookup (symbolOf name) head with
      | some e => simp [hl] at h
      | none => rw [hl] at h; exact ih _ _ _ h
    | reference name =>
      simp only [pass1Records] at h
      split_ifs at h
      exact ih _ _ _ h
    | marker =>
      simp only [pass1Records] at h
      exact ih _ _ _ h

theorem pass2Records_eof (tbl : List Sym) (rs : List Record) (stop : Stop) : ∀ fq bin st,
    pass2Records tbl rs stop fq bin = .eof st → stop = .endOfInput := by
  induction rs with
  | nil => intro fq bin st h; cases stop <;> simp_all [pass2Records]
  | cons r rs ih =>
    intro fq bin st h
    cases r with
    | dataByte b =>
      simp only [pass2Records] at h
      split_ifs at h
      exact ih _ _ _ h
    | declaration name =>
      simp only [pass2Records] at h
      exact ih _ _ _ h
    | reference name =>
      simp only [pass2Records] at h
      cases hl : lookup (symbolOf name) tbl with
      | none => simp [hl] at h
      | some e =>
        rw [hl] at h
        simp only [] at h
        split_ifs at h
        exact ih _ _ _ h
    | marker =>
      simp only [pass2Records] at h
      exact ih _ _ _ h

theorem collect1Files_eq (ss : List (List Nat)) : ∀ head addr,
    collect1Files (ss.map some) head addr
      = pass1Records (decodeFiles ss).1 (decodeFiles ss).2 head addr := by
  induction ss with
  | nil => intro head addr; simp [collect1Files, decodeFiles, pass1Records]
  | cons s rest ih =>
    intro head addr
    simp only [List.map_cons, collect1Files, decodeFiles, collect1Ctl_eq]
    rcases hd : decodeCtl s with ⟨rs, stop⟩
    by_cases hs : stop = .endOfInput
    · subst hs
      simp only [pass1Records_append, ih]
      cases hp : pass1Records rs .endOfInput head addr <;> rfl
    · have hne : ∀ st, pass1Records rs stop head addr ≠ .eof st :=
        fun st h => hs (pass1Records_eof rs stop head addr st h)
      cases stop <;> first
        | exact absurd rfl hs
        | (cases hp : pass1Records rs _ head addr
           · exact absurd hp (hne _)
           · rfl
           · rfl)

theorem process2Files_eq (tbl : List Sym) (ss : List (List Nat)) : ∀ fq bin,
    process2Files tbl (ss.map some) fq bin
      = pass2Records tbl (decodeFiles ss).1 (decodeFiles ss).2 fq bin := by
  induction ss with
  | nil => intro fq bin; simp [process2Files, decodeFiles, pass2Records]
  | cons s rest ih =>
    intro fq bin
    simp only [List.map_cons, process2Files, decodeFiles, process2Ctl_eq]
    rcases hd : decodeCtl s with ⟨rs, stop⟩
    by_cases hs : stop = .endOfInput
    · subst hs
      simp only [pass2Records_append, ih]
      cases hp : pass2Records tbl rs .endOfInput fq bin <;> rfl
    · have hne : ∀ st, pass2Records tbl rs stop fq bin ≠ .eof st :=
        fun st h => hs (pass2Records_eof tbl rs stop fq bin st h)
      cases stop <;> first
        | exact absurd rfl hs
        | (cases hp : pass2Records tbl rs _ fq bin
           · exact absurd hp (hne _)
           · rfl
           · rfl)


/-! ## The symbol collection -/

theorem lookup_eq_none_iff (symbol : List Nat) (tbl : List Sym) :
    lookup symbol tbl = none ↔ symbol ∉ tbl.map Sym.symbol := by
  induction tbl with
  | nil => simp [lookup]
  | cons c next ih =>
    simp only [lookup, List.map_cons, List.mem_cons, not_or]
    split_ifs with h
    · simp [h]
    · simp [h, ih]

theorem lookup_some (symbol : List Nat) (tbl : List Sym) (e : Sym)
    (h : lookup symbol tbl = some e) : e ∈ tbl ∧ e.symbol = symbol := by
  induction tbl with
  | nil => simp [lookup] at h
  | cons c next ih =>
    simp only [lookup] at h
    split_ifs at h with hc
    · simp only [Option.some.injEq] at h
      subst h
      exact ⟨List.mem_cons_self _ _, hc.symm⟩
    · exact ⟨List.mem_cons_of_mem _ (ih h).1, (ih h).2⟩

theorem lookup_of_mem (tbl : List Sym) (e : Sym) (hn : (tbl.map Sym.symbol).Nodup)
    (he : e ∈ tbl) : lookup e.symbol tbl = some e := by
  induction tbl with
  | nil => simp at he
  | cons c next ih =>
    simp only [List.map_cons, List.nodup_cons] at hn
    simp only [lookup]
    rcases List.mem_cons.mp he with rfl | hmem
    · simp
    · have hne : e.symbol ≠ c.symbol := by
        intro heq
        exact hn.1 (heq ▸ List.mem_map_of_mem Sym.symbol hmem)
      rw [if_neg hne]
      exact ih hn.2 hmem

/-! ## Facts about record sequences -/

theorem size_nil : size [] = 0 := rfl

theorem size_cons (r : Record) (rs : List Record) : size (r :: rs) = r.bytes + size rs := by
  simp [size]

theorem size_append (rs rs2 : List Record) : size (rs ++ rs2) = size rs + size rs2 := by
  simp [size]

theorem size_eq_count (rs : List Record) : size rs = countData rs + 2 * countRef rs := by
  induction rs with
  | nil => rfl
  | cons r rs ih =>
    cases r <;> simp [size_cons, countData, countRef, Record.bytes, List.countP_cons] at * <;>
      omega

theorem declared_append (rs rs2 : List Record) : ∀ addr,
    declared addr (rs ++ rs2) = declared addr rs ++ declared (addr + size rs) rs2 := by
  induction rs with
  | nil => intro addr; simp [declared, size_nil]
  | cons r rs ih =>
    intro addr
    cases r with
    | dataByte b => simp [declared, size_cons, Record.bytes, ih, Nat.add_assoc]
    | declaration name => simp [declared, size_cons, Record.bytes, ih]
    | reference name => simp [declared, size_cons, Record.bytes, ih, Nat.add_assoc]
    | marker => simp [declared, size_cons, Record.bytes, ih]

theorem mem_declared (rs : List Record) : ∀ addr e, e ∈ declared addr rs →
    addr ≤ e.addr ∧ e.addr ≤ addr + size rs ∧
      ∃ name, Record.declaration name ∈ rs ∧ e.symbol = symbolOf name := by
  induction rs with
  | nil => intro addr e h; simp [declared] at h
  | cons r rs ih =>
    intro addr e h
    cases r with
    | dataByte b =>
      simp only [declared] at h
      obtain ⟨h1, h2, n, h3, h4⟩ := ih _ _ h
      refine ⟨by omega, by simp [size_cons, Record.bytes]; omega, n, ?_, h4⟩
      exact List.mem_cons_of_mem _ h3
    | declaration name =>
      simp only [declared, List.mem_cons] at h
      rcases h with rfl | h
      · exact ⟨Nat.le_refl _, by simp, name, List.mem_cons_self _ _, rfl⟩
      · obtain ⟨h1, h2, n, h3, h4⟩ := ih _ _ h
        refine ⟨h1, by simp [size_cons, Record.bytes]; omega, n, ?_, h4⟩
        exact List.mem_cons_of_mem _ h3
    | reference name =>
      simp only [declared] at h
      obtain ⟨h1, h2, n, h3, h4⟩ := ih _ _ h
      refine ⟨by omega, by simp [size_cons, Record.bytes]; omega, n, ?_, h4⟩
      exact List.mem_cons_of_mem _ h3
    | marker =>
      simp only [declared] at h
      obtain ⟨h1, h2, n, h3, h4⟩ := ih _ _ h
      refine ⟨h1, by simp [size_cons, Record.bytes]; omega, n, ?_, h4⟩
      exact List.mem_cons_of_mem _ h3

/-- What a pass 1 that returns 0 has done, told on the records: the collection has grown
by the declared entries, whose names are new and non-empty, and the counter by the size
of the records, staying within `USHRT_MAX` whenever it moved. -/
theorem pass1Records_final (rs : List Record) (stop : Stop) : ∀ head addr st,
    (pass1Records rs stop head addr).final = some st →
      st.1 = head ++ declared addr rs ∧ st.2 = addr + size rs ∧
      (size rs ≠ 0 → addr + size rs ≤ USHRT_MAX) ∧
      ((head.map Sym.symbol).Nodup → (st.1.map Sym.symbol).Nodup) ∧
      (∀ e ∈ declared addr rs, e.symbol ≠ []) := by
  induction rs with
  | nil =>
    intro head addr st h
    cases stop <;> simp [pass1Records, Scan.final] at h <;> subst h <;>
      simp [declared, size_nil]
  | cons r rs ih =>
    intro head addr st h
    cases r with
    | dataByte b =>
      simp only [pass1Records] at h
      split_ifs at h with hlt
      · simp [Scan.final] at h
      · obtain ⟨h1, h2, h3, h4, h5⟩ := ih _ _ _ h
        refine ⟨by simpa [declared] using h1, by simp [size_cons, Record.bytes]; omega,
          ?_, h4, by simpa [declared] using h5⟩
        intro _
        simp only [size_cons, Record.bytes]
        by_cases hz : size rs = 0
        · omega
        · have := h3 hz; omega
    | declaration name =>
      simp only [pass1Records] at h
      split_ifs at h with hlen
      · simp [Scan.final] at h
      · cases hl : lookup (symbolOf name) head with
        | some e => simp [hl, Scan.final] at h
        | none =>
          rw [hl] at h
          obtain ⟨h1, h2, h3, h4, h5⟩ := ih _ _ _ h
          have hnew : symbolOf name ∉ head.map Sym.symbol :=
            (lookup_eq_none_iff _ _).mp hl
          refine ⟨by simpa [declared] using h1, by simpa [size_cons, Record.bytes] using h2,
            by simpa [size_cons, Record.bytes] using h3, ?_, ?_⟩
          · intro hn
            apply h4
            simp only [List.map_append, List.map_cons, List.map_nil]
            rw [List.nodup_append]
            refine ⟨hn, by simp, ?_⟩
            intro a ha hb
            simp only [List.mem_singleton] at hb
            subst hb
            exact hnew ha
          · intro e he
            simp only [declared, List.mem_cons] at he
            rcases he with rfl | he
            · intro hnil
              apply hlen
              simp only at hnil
              simp [hnil]
            · exact h5 e he
    | reference name =>
      simp only [pass1Records] at h
      split_ifs at h with hlt
      · simp [Scan.final] at h
      · obtain ⟨h1, h2, h3, h4, h5⟩ := ih _ _ _ h
        refine ⟨by simpa [declared] using h1, by simp [size_cons, Record.bytes]; omega,
          ?_, h4, by simpa [declared] using h5⟩
        intro _
        simp only [size_cons, Record.bytes]
        by_cases hz : size rs = 0
        · omega
        · have := h3 hz; omega
    | marker =>
      simp only [pass1Records] at h
      obtain ⟨h1, h2, h3, h4, h5⟩ := ih _ _ _ h
      exact ⟨by simpa [declared] using h1, by simpa [size_cons, Record.bytes] using h2,
        by simpa [size_cons, Record.bytes] using h3, h4, by simpa [declared] using h5⟩


theorem contribution_length (tbl : List Sym) (r : Record) (c : List Nat)
    (h : contribution tbl r = some c) : c.length = r.bytes := by
  cases r with
  | dataByte b => simp [contribution] at h; subst h; rfl
  | declaration name => simp [contribution] at h; subst h; rfl
  | reference name =>
    simp only [contribution] at h
    cases hl : lookup (symbolOf name) tbl with
    | none => simp [hl] at h
    | some e => simp [hl] at h; subst h; rfl
  | marker => simp [contribution] at h; subst h; rfl

theorem imageOf_cons (tbl : List Sym) (r : Record) (rs : List Record) (c cs : List Nat)
    (hc : contribution tbl r = some c) (hcs : imageOf tbl rs = some cs) :
    imageOf tbl (r :: rs) = some (c ++ cs) := by
  simp [imageOf, hc, hcs]

theorem imageOf_length (tbl : List Sym) (rs : List Record) : ∀ image,
    imageOf tbl rs = some image → image.length = size rs := by
  induction rs with
  | nil => intro image h; simp [imageOf] at h; subst h; rfl
  | cons r rs ih =>
    intro image h
    simp only [imageOf] at h
    cases hc : contribution tbl r with
    | none => simp [hc] at h
    | some c =>
      cases hcs : imageOf tbl rs with
      | none => simp [hc, hcs] at h
      | some cs =>
        simp [hc, hcs] at h
        subst h
        simp [size_cons, contribution_length tbl r c hc, ih cs hcs]

theorem imageOf_append (tbl : List Sym) (rs rs2 : List Record) (image : List Nat)
    (h : imageOf tbl (rs ++ rs2) = some image) :
    ∃ a b, imageOf tbl rs = some a ∧ imageOf tbl rs2 = some b ∧ image = a ++ b := by
  induction rs generalizing image with
  | nil => exact ⟨[], image, rfl, by simpa using h, rfl⟩
  | cons r rs ih =>
    simp only [List.cons_append, imageOf] at h
    cases hc : contribution tbl r with
    | none => simp [hc] at h
    | some c =>
      cases hcs : imageOf tbl (rs ++ rs2) with
      | none => simp [hc, hcs] at h
      | some cs =>
        simp [hc, hcs] at h
        obtain ⟨a, b, ha, hb, hab⟩ := ih cs hcs
        refine ⟨c ++ a, b, imageOf_cons tbl r rs c a hc ha, hb, ?_⟩
        rw [← h, hab, List.append_assoc]

theorem addr_bytes (a : Nat) (h : a ≤ USHRT_MAX) :
    [a &&& 0xff, (a >>> 8) &&& 0xff] = [a % 256, a / 256] := by
  have h1 : a &&& 0xff = a % 256 := Nat.and_pow_two_sub_one_eq_mod a 8
  have h2 : (a >>> 8) &&& 0xff = (a >>> 8) % 256 := Nat.and_pow_two_sub_one_eq_mod _ 8
  have h3 : a >>> 8 = a / 256 := Nat.shiftRight_eq_div_pow a 8
  have h4 : a / 256 < 256 := by unfold USHRT_MAX at h; omega
  rw [h1, h2, h3, Nat.mod_eq_of_lt h4]

/-- What a pass 2 that returns 0 has written, told on the records: the contributions of
the records in order, and `bin` counts them. -/
theorem pass2Records_final (tbl : List Sym) (htbl : ∀ e ∈ tbl, e.addr ≤ USHRT_MAX)
    (rs : List Record) (stop : Stop) : ∀ fq bin st,
    (pass2Records tbl rs stop fq bin).final = some st →
      ∃ image, imageOf tbl rs = some image ∧ st.1 = fq ++ image ∧
        st.2 = bin + image.length := by
  induction rs with
  | nil =>
    intro fq bin st h
    cases stop <;> simp [pass2Records, Scan.final] at h <;> subst h <;>
      exact ⟨[], rfl, by simp, by simp⟩
  | cons r rs ih =>
    intro fq bin st h
    cases r with
    | dataByte b =>
      simp only [pass2Records] at h
      split_ifs at h with hlt
      · simp [Scan.final] at h
      · obtain ⟨image, h1, h2, h3⟩ := ih _ _ _ h
        refine ⟨[b] ++ image, imageOf_cons tbl _ rs [b] image rfl h1, ?_, ?_⟩
        · rw [h2, List.append_assoc]
        · rw [h3]; simp; omega
    | declaration name =>
      simp only [pass2Records] at h
      obtain ⟨image, h1, h2, h3⟩ := ih _ _ _ h
      exact ⟨[] ++ image, imageOf_cons tbl _ rs [] image rfl h1, by simpa using h2,
        by simpa using h3⟩
    | reference name =>
      simp only [pass2Records] at h
      cases hl : lookup (symbolOf name) tbl with
      | none => simp [hl, Scan.final] at h
      | some e =>
        rw [hl] at h
        simp only [] at h
        split_ifs at h with hb1 hb2
        · simp [Scan.final] at h
        · simp [Scan.final] at h
        · obtain ⟨image, h1, h2, h3⟩ := ih _ _ _ h
          have he := htbl e (lookup_some _ _ _ hl).1
          refine ⟨[e.addr % 256, e.addr / 256] ++ image,
            imageOf_cons tbl _ rs _ image (by simp [contribution, hl]) h1, ?_, ?_⟩
          · rw [h2, addr_bytes _ he, List.append_assoc]
          · rw [h3]; simp; omega
    | marker =>
      simp only [pass2Records] at h
      obtain ⟨image, h1, h2, h3⟩ := ih _ _ _ h
      exact ⟨[] ++ image, imageOf_cons tbl _ rs [] image rfl h1, by simpa using h2,
        by simpa using h3⟩

/-! ## The passes on a list of streams -/

theorem collect1_ok (ss : List (List Nat)) (head tbl : List Sym) (addr : Nat)
    (h : collect1 (ss.map some) head = .ok (tbl, addr)) :
    (pass1Records (decodeFiles ss).1 (decodeFiles ss).2 head 0x100).final
      = some (tbl, addr) := by
  unfold collect1 at h
  rw [collect1Files_eq] at h
  cases hp : pass1Records (decodeFiles ss).1 (decodeFiles ss).2 head 0x100 <;>
    simp_all [Scan.final]

theorem process2_ok (ss : List (List Nat)) (tbl : List Sym) (image : List Nat)
    (h : process2 (ss.map some) tbl = .ok image) :
    ∃ bin, (pass2Records tbl (decodeFiles ss).1 (decodeFiles ss).2 [] 0).final
      = some (image, bin) := by
  unfold process2 at h
  rw [process2Files_eq] at h
  cases hp : pass2Records tbl (decodeFiles ss).1 (decodeFiles ss).2 [] 0 with
  | eof st => rw [hp] at h; simp at h; exact ⟨st.2, by simp [Scan.final, ← h]⟩
  | stop st => rw [hp] at h; simp at h; exact ⟨st.2, by simp [Scan.final, ← h]⟩
  | fail e => rw [hp] at h; simp at h

/-- The collection after a pass 1 that returned 0 on the preloaded `head`: the sentinel
followed by the declared entries, with distinct names and addresses within 16 bits. -/
theorem collect1_table (ss : List (List Nat)) (tbl : List Sym) (addr : Nat)
    (h : collect1 (ss.map some) [sentinel] = .ok (tbl, addr)) :
    tbl = sentinel :: declared 0x100 (decodeFiles ss).1 ∧
      addr = 0x100 + size (decodeFiles ss).1 ∧ addr ≤ USHRT_MAX ∧
      (tbl.map Sym.symbol).Nodup ∧ (∀ e ∈ tbl, e.addr ≤ USHRT_MAX) := by
  obtain ⟨h1, h2, h3, h4, _⟩ := pass1Records_final _ _ _ _ _ (collect1_ok ss _ _ _ h)
  simp only at h1 h2 h4
  have haddr : addr ≤ USHRT_MAX := by
    by_cases hz : size (decodeFiles ss).1 = 0
    · rw [h2, hz]; decide
    · rw [h2]; exact h3 hz
  refine ⟨by simpa using h1, h2, haddr, h4 (by simp), ?_⟩
  intro e he
  rw [h1] at he
  simp only [List.singleton_append, List.mem_cons] at he
  rcases he with rfl | he
  · decide
  · have := (mem_declared _ _ _ he).2.1
    omega


theorem link_ok (files : List (Option (List Nat))) (head : List Sym) (image : List Nat)
    (h : link files head = .ok image) :
    ∃ tbl addr, collect1 files head = .ok (tbl, addr) ∧ process2 files tbl = .ok image := by
  unfold link at h
  cases hc : collect1 files head with
  | error e => simp [hc] at h
  | ok st => exact ⟨st.1, st.2, rfl, by simpa [hc] using h⟩

theorem link_of_passes (files : List (Option (List Nat))) (head tbl : List Sym) (addr : Nat)
    (h : collect1 files head = .ok (tbl, addr)) : link files head = process2 files tbl := by
  simp [link, h]

/-- The entry of a declaration that pass 1 has gone through: found by `lookup` under the
symbol of its name, with the counter value of its declaration point. -/
theorem lookup_declared (ss : List (List Nat)) (tbl : List Sym) (addr : Nat)
    (h : collect1 (ss.map some) [sentinel] = .ok (tbl, addr))
    (pre post : List Record) (name : List Nat)
    (hrs : (decodeFiles ss).1 = pre ++ Record.declaration name :: post) :
    lookup (symbolOf name) tbl = some ⟨symbolOf name, 0x100 + size pre⟩ := by
  obtain ⟨h1, _, _, h4, _⟩ := collect1_table ss tbl addr h
  have hmem : (⟨symbolOf name, 0x100 + size pre⟩ : Sym) ∈ tbl := by
    rw [h1, hrs, declared_append]
    simp [declared]
  exact lookup_of_mem tbl _ h4 hmem

/-! ## Decoding a stream in two parts -/

theorem decodeCtl_cons (ch : Nat) (s : List Nat) :
    decodeCtl (ch :: s) =
      if ch = 0 then
        match s with
        | [] => ([], .truncatedData)
        | b :: s2 => (Record.dataByte b).andThen (decodeCtl s2)
      else if ch = 1 then decodeDecl s []
      else if ch = 2 then decodeRef s []
      else if ch = 3 then Record.marker.andThen (decodeCtl s)
      else if ch = 26 then ([], .endOfModule)
      else ([], .unknownControlByte ch) := by
  cases s <;> simp [decodeCtl]

/-- A stream that decodes to whole records: the decoding ends at the end of the stream
on a record boundary or at an EndOfModule byte. -/
theorem decode_append_aux (t : List Nat) (n : Nat) : ∀ p : List Nat, p.length ≤ n →
    (((decodeCtl p).2 = .endOfInput ∨ (decodeCtl p).2 = .endOfModule) →
      decodeCtl (p ++ t) = if (decodeCtl p).2 = .endOfInput
        then ((decodeCtl p).1 ++ (decodeCtl t).1, (decodeCtl t).2) else decodeCtl p) ∧
    (∀ name, ((decodeDecl p name).2 = .endOfInput ∨ (decodeDecl p name).2 = .endOfModule) →
      decodeDecl (p ++ t) name = if (decodeDecl p name).2 = .endOfInput
        then ((decodeDecl p name).1 ++ (decodeCtl t).1, (decodeCtl t).2)
        else decodeDecl p name) ∧
    (∀ name, ((decodeRef p name).2 = .endOfInput ∨ (decodeRef p name).2 = .endOfModule) →
      decodeRef (p ++ t) name = if (decodeRef p name).2 = .endOfInput
        then ((decodeRef p name).1 ++ (decodeCtl t).1, (decodeCtl t).2)
        else decodeRef p name) := by
  induction n with
  | zero =>
    intro p hp
    have : p = [] := List.length_eq_zero.mp (by omega)
    subst this
    simp [decodeCtl, decodeDecl, decodeRef]
  | succ n ih =>
    intro p hp
    cases p with
    | nil => simp [decodeCtl, decodeDecl, decodeRef]
    | cons ch s =>
      have hlen : s.length ≤ n := by simpa using hp
      obtain ⟨ihC, ihD, ihR⟩ := ih s hlen
      refine ⟨?_, ?_, ?_⟩
      · rw [List.cons_append, decodeCtl_cons ch (s ++ t), decodeCtl_cons ch s]
        by_cases h0 : ch = 0
        · simp only [if_pos h0]
          cases s with
          | nil => simp
          | cons b s2 =>
            have h2 : s2.length ≤ n := by simp at hlen; omega
            intro hg
            simp only [List.cons_append, Record.andThen] at hg ⊢
            rw [(ih s2 h2).1 hg]
            split_ifs <;> simp
        · simp only [if_neg h0]
          by_cases h1 : ch = 1
          · simp only [if_pos h1]; exact ihD []
          · simp only [if_neg h1]
            by_cases h2 : ch = 2
            · simp only [if_pos h2]; exact ihR []
            · simp only [if_neg h2]
              by_cases h3 : ch = 3
              · simp only [if_pos h3, Record.andThen]
                intro hg
                rw [ihC hg]
                split_ifs <;> simp
              · simp only [if_neg h3]
                by_cases h4 : ch = 26
                · simp [h4]
                · simp [h4]
      · intro name
        rw [List.cons_append, decodeDecl, decodeDecl]
        by_cases h1 : ch = 1
        · simp only [if_pos h1, Record.andThen]
          intro hg
          rw [ihC hg]
          split_ifs <;> simp
        · simp only [if_neg h1]; exact ihD _
      · intro name
        rw [List.cons_append, decodeRef, decodeRef]
        by_cases h2 : ch = 2
        · simp only [if_pos h2, Record.andThen]
          intro hg
          rw [ihC hg]
          split_ifs <;> simp
        · simp only [if_neg h2]; exact ihR _

theorem decodeCtl_append_eoi (p t : List Nat) (h : (decodeCtl p).2 = .endOfInput) :
    decodeCtl (p ++ t) = ((decodeCtl p).1 ++ (decodeCtl t).1, (decodeCtl t).2) := by
  rw [(decode_append_aux t p.length p (Nat.le_refl _)).1 (Or.inl h), if_pos h]

theorem decodeCtl_append_eom (p t : List Nat) (h : (decodeCtl p).2 = .endOfModule) :
    decodeCtl (p ++ t) = decodeCtl p := by
  rw [(decode_append_aux t p.length p (Nat.le_refl _)).1 (Or.inr h), if_neg (by simp [h])]

theorem decodeDecl_name (name s : List Nat) (hname : 1 ∉ name) : ∀ acc,
    decodeDecl (name ++ 1 :: s) acc
      = (Record.declaration (acc ++ name)).andThen (decodeCtl s) := by
  induction name with
  | nil => intro acc; simp [decodeDecl]
  | cons c name ih =>
    intro acc
    simp only [List.mem_cons, not_or] at hname
    have hc : c ≠ 1 := fun h => hname.1 h.symm
    rw [List.cons_append, decodeDecl, if_neg hc, ih hname.2]
    simp

theorem decodeRef_name (name s : List Nat) (hname : 2 ∉ name) : ∀ acc,
    decodeRef (name ++ 2 :: s) acc
      = (Record.reference (acc ++ name)).andThen (decodeCtl s) := by
  induction name with
  | nil => intro acc; simp [decodeRef]
  | cons c name ih =>
    intro acc
    simp only [List.mem_cons, not_or] at hname
    have hc : c ≠ 2 := fun h => hname.1 h.symm
    rw [List.cons_append, decodeRef, if_neg hc, ih hname.2]
    simp

theorem decodeCtl_declaration (name s : List Nat) (hname : 1 ∉ name) :
    decodeCtl (1 :: (name ++ 1 :: s))
      = (Record.declaration name).andThen (decodeCtl s) := by
  rw [decodeCtl_cons]
  simpa using decodeDecl_name name s hname []

theorem decodeCtl_reference (name s : List Nat) (hname : 2 ∉ name) :
    decodeCtl (2 :: (name ++ 2 :: s))
      = (Record.reference name).andThen (decodeCtl s) := by
  rw [decodeCtl_cons]
  simpa using decodeRef_name name s hname []

theorem decodeFiles_cons (s : List Nat) (rest : List (List Nat)) :
    decodeFiles (s :: rest) = if (decodeCtl s).2 = .endOfInput
      then ((decodeCtl s).1 ++ (decodeFiles rest).1, (decodeFiles rest).2)
      else decodeCtl s := by
  rw [decodeFiles]
  rcases hd : decodeCtl s with ⟨rs, stop⟩
  cases stop <;> simp

theorem decodeFiles_append (F G : List (List Nat)) :
    decodeFiles (F ++ G) = if (decodeFiles F).2 = .endOfInput
      then ((decodeFiles F).1 ++ (decodeFiles G).1, (decodeFiles G).2)
      else decodeFiles F := by
  induction F with
  | nil => simp [decodeFiles]
  | cons s rest ih =>
    rw [List.cons_append, decodeFiles_cons, decodeFiles_cons s rest, ih]
    by_cases h1 : (decodeCtl s).2 = .endOfInput
    · simp only [if_pos h1]
      by_cases h2 : (decodeFiles rest).2 = .endOfInput
      · simp [h2]
      · simp [h2]
    · simp [h1]

theorem pass1Records_stop (rs : List Record) (stop : Stop) : ∀ head addr st,
    pass1Records rs stop head addr = .stop st → stop = .endOfModule := by
  induction rs with
  | nil => intro head addr st h; cases stop <;> simp_all [pass1Records]
  | cons r rs ih =>
    intro head addr st h
    cases r with
    | dataByte b =>
      simp only [pass1Records] at h
      split_ifs at h
      exact ih _ _ _ h
    | declaration name =>
      simp only [pass1Records] at h
      split_ifs at h
      cases hl : lookup (symbolOf name) head with
      | some e => simp [hl] at h
      | none => rw [hl] at h; exact ih _ _ _ h
    | reference name =>
      simp only [pass1Records] at h
      split_ifs at h
      exact ih _ _ _ h
    | marker =>
      simp only [pass1Records] at h
      exact ih _ _ _ h

theorem pass2Records_stop (tbl : List Sym) (rs : List Record) (stop : Stop) : ∀ fq bin st,
    pass2Records tbl rs stop fq bin = .stop st → stop = .endOfModule := by
  induction rs with
  | nil => intro fq bin st h; cases stop <;> simp_all [pass2Records]
  | cons r rs ih =>
    intro fq bin st h
    cases r with
    | dataByte b =>
      simp only [pass2Records] at h
      split_ifs at h
      exact ih _ _ _ h
    | declaration name =>
      simp only [pass2Records] at h
      exact ih _ _ _ h
    | reference name =>
      simp only [pass2Records] at h
      cases hl : lookup (symbolOf name) tbl with
      | none => simp [hl] at h
      | some e =>
        rw [hl] at h
        simp only [] at h
        split_ifs at h
        exact ih _ _ _ h
    | marker =>
      simp only [pass2Records] at h
      exact ih _ _ _ h

/-- A file list cut inside a file at a record boundary that the decoding reaches: the
records of the whole list are those before the cut followed by those after it. -/
theorem decodeFiles_cut (F G : List (List Nat)) (p q : List Nat)
    (hp : (decodeFiles (F ++ [p])).2 = .endOfInput) :
    decodeFiles (F ++ (p ++ q) :: G)
      = ((decodeFiles (F ++ [p])).1 ++ (decodeFiles (q :: G)).1,
          (decodeFiles (q :: G)).2) := by
  rw [decodeFiles_append] at hp
  have hF : (decodeFiles F).2 = .endOfInput := by
    by_contra hne
    rw [if_neg hne] at hp
    exact hne hp
  rw [if_pos hF, decodeFiles_cons] at hp
  have hP : (decodeCtl p).2 = .endOfInput := by
    by_contra hne
    rw [if_neg hne] at hp
    exact hne hp
  rw [decodeFiles_append, if_pos hF, decodeFiles_append, if_pos hF,
    decodeFiles_cons (p ++ q), decodeCtl_append_eoi p q hP, decodeFiles_cons p,
    if_pos hP, decodeFiles_cons q]
  simp only [decodeFiles, List.append_nil]
  by_cases hq : (decodeCtl q).2 = .endOfInput
  · simp [hq]
  · simp [hq]

/-- The run of pass 2 over the records `pre ++ post`: when it returns 0, the run over
`pre` alone reaches the end of `pre`, having written a part of the final output that is
as long as the size of `pre`. -/
theorem pass2Records_split (tbl : List Sym) (htbl : ∀ e ∈ tbl, e.addr ≤ USHRT_MAX)
    (pre post : List Record) (stop : Stop) (st : List Nat × Nat)
    (h : (pass2Records tbl (pre ++ post) stop [] 0).final = some st) :
    ∃ fq, pass2Records tbl pre .endOfInput [] 0 = .eof (fq, fq.length) ∧
      fq.length = size pre ∧ ∃ rest, st.1 = fq ++ rest := by
  rw [pass2Records_append] at h
  cases hpre : pass2Records tbl pre .endOfInput [] 0 with
  | fail e => simp [hpre, Scan.final] at h
  | stop st0 => exact absurd (pass2Records_stop tbl pre _ _ _ _ hpre) (by simp)
  | eof st0 =>
    rw [hpre] at h
    simp only [] at h
    obtain ⟨img0, hi1, hi2, hi3⟩ :=
      pass2Records_final tbl htbl pre .endOfInput [] 0 st0 (by simp [hpre, Scan.final])
    obtain ⟨img1, _, hj2, _⟩ := pass2Records_final tbl htbl post stop _ _ st h
    obtain ⟨fq0, bin0⟩ := st0
    simp only [List.nil_append, Nat.zero_add] at hi2 hi3
    subst hi2 hi3
    exact ⟨fq0, rfl, imageOf_length tbl pre fq0 hi1, img1, hj2⟩

/-! ## Streams of data bytes -/

theorem decodeCtl_dataStream (b : Nat) : ∀ n,
    decodeCtl (dataStream b n) = (List.replicate n (Record.dataByte b), .endOfInput) := by
  intro n
  induction n with
  | zero => simp [dataStream, decodeCtl]
  | succ n ih =>
    rw [dataStream, decodeCtl_cons, if_pos rfl]
    simp [Record.andThen, ih, List.replicate_succ]

theorem pass1Records_data (b : Nat) (head : List Sym) : ∀ n addr, addr ≤ USHRT_MAX →
    pass1Records (List.replicate n (Record.dataByte b)) .endOfInput head addr
      = if addr + n ≤ USHRT_MAX then .eof (head, addr + n) else .fail .exceeds65280 := by
  intro n
  induction n with
  | zero => intro addr h; simp [pass1Records, h]
  | succ n ih =>
    intro addr h
    simp only [List.replicate_succ, pass1Records]
    by_cases h1 : addr + 1 > USHRT_MAX
    · rw [if_pos h1, if_neg (by omega)]
    · rw [if_neg h1, ih (addr + 1) (by omega)]
      by_cases h2 : addr + (n + 1) ≤ USHRT_MAX
      · rw [if_pos (by omega), if_pos h2]
        congr 2; omega
      · rw [if_neg (by omega), if_neg h2]

theorem pass2Records_data (tbl : List Sym) (b : Nat) : ∀ n fq bin, bin ≤ BIN_MAX →
    pass2Records tbl (List.replicate n (Record.dataByte b)) .endOfInput fq bin
      = if bin + n ≤ BIN_MAX then .eof (fq ++ List.replicate n b, bin + n)
        else .fail .binaryTooLarge := by
  intro n
  induction n with
  | zero => intro fq bin h; simp [pass2Records, h]
  | succ n ih =>
    intro fq bin h
    simp only [List.replicate_succ, pass2Records]
    by_cases h1 : bin = BIN_MAX
    · rw [if_pos h1, if_neg (by omega)]
    · rw [if_neg h1, ih _ (bin + 1) (by omega)]
      by_cases h2 : bin + (n + 1) ≤ BIN_MAX
      · rw [if_pos (by omega), if_pos h2]
        congr 2
        · simp
        · omega
      · rw [if_neg (by omega), if_neg h2]

theorem collect1_dataStream (b n : Nat) (head : List Sym) :
    collect1 [some (dataStream b n)] head
      = if n ≤ 65279 then .ok (head, 0x100 + n) else .error .exceeds65280 := by
  have h := collect1Files_eq [dataStream b n] head 0x100
  simp only [List.map_cons, List.map_nil] at h
  rw [collect1, h, decodeFiles_cons, decodeCtl_dataStream]
  simp only [if_true, decodeFiles, List.append_nil]
  rw [pass1Records_data b head n 0x100 (by decide)]
  by_cases hn : n ≤ 65279
  · rw [if_pos hn, if_pos (by unfold USHRT_MAX; omega)]
  · rw [if_neg hn, if_neg (by unfold USHRT_MAX; omega)]

theorem process2_dataStream (b n : Nat) (tbl : List Sym) :
    process2 [some (dataStream b n)] tbl
      = if n ≤ 65280 then .ok (List.replicate n b) else .error .binaryTooLarge := by
  have h := process2Files_eq tbl [dataStream b n] [] 0
  simp only [List.map_cons, List.map_nil] at h
  rw [process2, h, decodeFiles_cons, decodeCtl_dataStream]
  simp only [if_true, decodeFiles, List.append_nil]
  rw [pass2Records_data tbl b n [] 0 (by decide)]
  by_cases hn : n ≤ 65280
  · rw [if_pos hn, if_pos (by unfold BIN_MAX; omega)]
    simp
  · rw [if_neg hn, if_neg (by unfold BIN_MAX; omega)]

theorem link_dataStream (b n : Nat) :
    link [some (dataStream b n)] [sentinel]
      = if n ≤ 65279 then .ok (List.replicate n b) else .error .exceeds65280 := by
  rw [link, collect1_dataStream]
  by_cases hn : n ≤ 65279
  · simp only [if_pos hn]
    rw [process2_dataStream, if_pos (by omega)]
  · simp only [if_neg hn]

/-! ## Failing links -/

theorem collect1_error_link (files : List (Option (List Nat))) (head : List Sym) (e : Err)
    (h : collect1 files head = .error e) : link files head = .error e := by
  simp [link, h]

/-- A reference whose symbol is not in the collection stops pass 2 with an error. -/
theorem pass2Records_undefined (tbl : List Sym) (name : List Nat)
    (hl : lookup (symbolOf name) tbl = none) (rs : List Record) (stop : Stop) :
    ∀ fq bin, Record.reference name ∈ rs →
      (pass2Records tbl rs stop fq bin).final = none := by
  induction rs with
  | nil => intro fq bin h; simp at h
  | cons r rs ih =>
    intro fq bin h
    cases r with
    | dataByte b =>
      simp only [pass2Records]
      split_ifs
      · rfl
      · exact ih _ _ (by simpa using h)
    | declaration name2 =>
      simp only [pass2Records]
      exact ih _ _ (by simpa using h)
    | reference name2 =>
      simp only [pass2Records]
      rcases List.mem_cons.mp h with heq | hmem
      · simp only [Record.reference.injEq] at heq
        subst heq
        rw [hl]; rfl
      · cases lookup (symbolOf name2) tbl with
        | none => rfl
        | some e =>
          simp only []
          split_ifs
          · rfl
          · rfl
          · exact ih _ _ hmem
    | marker =>
      simp only [pass2Records]
      exact ih _ _ (by simpa using h)

theorem process2_error (ss : List (List Nat)) (tbl : List Sym)
    (h : (pass2Records tbl (decodeFiles ss).1 (decodeFiles ss).2 [] 0).final = none) :
    ∃ e, process2 (ss.map some) tbl = .error e := by
  unfold process2
  rw [process2Files_eq]
  cases hp : pass2Records tbl (decodeFiles ss).1 (decodeFiles ss).2 [] 0 with
  | eof st => simp [hp, Scan.final] at h
  | stop st => simp [hp, Scan.final] at h
  | fail e => exact ⟨e, rfl⟩

/-! ## The EndOfModule byte -/

theorem pass1Records_eom (rs : List Record) (head : List Sym) (addr : Nat) :
    pass1Records rs .endOfModule head addr =
      match pass1Records rs .endOfInput head addr with
      | .eof st => .stop st
      | .stop st => .stop st
      | .fail e => .fail e := by
  have h := pass1Records_append rs [] .endOfModule head addr
  rw [List.append_nil] at h
  rw [h]
  cases pass1Records rs .endOfInput head addr <;> simp [pass1Records]

theorem pass2Records_eom (tbl : List Sym) (rs : List Record) (fq : List Nat) (bin : Nat) :
    pass2Records tbl rs .endOfModule fq bin =
      match pass2Records tbl rs .endOfInput fq bin with
      | .eof st => .stop st
      | .stop st => .stop st
      | .fail e => .fail e := by
  have h := pass2Records_append tbl rs [] .endOfModule fq bin
  rw [List.append_nil] at h
  rw [h]
  cases pass2Records tbl rs .endOfInput fq bin <;> simp [pass2Records]

theorem decodeCtl_eom_cut (p s : List Nat)
    (hp : (decodeCtl p).2 = .endOfInput ∨ (decodeCtl p).2 = .endOfModule) :
    decodeCtl (p ++ 26 :: s) = ((decodeCtl p).1, .endOfModule) := by
  rcases hp with hp | hp
  · rw [decodeCtl_append_eoi p _ hp, decodeCtl_cons]
    simp
  · rw [decodeCtl_append_eom p _ hp, ← hp]

theorem collect1_eom_cut (p s : List Nat) (rest : List (Option (List Nat)))
    (head : List Sym)
    (hp : (decodeCtl p).2 = .endOfInput ∨ (decodeCtl p).2 = .endOfModule) :
    collect1 (some (p ++ 26 :: s) :: rest) head = collect1 [some p] head := by
  simp only [collect1, collect1Files, collect1Ctl_eq, decodeCtl_eom_cut p s hp,
    pass1Records_eom]
  rcases hp with hp | hp
  · rw [hp]
    cases h : pass1Records (decodeCtl p).1 .endOfInput head 256 with
    | eof st => rfl
    | stop st => rfl
    | fail e => rfl
  · rw [hp, pass1Records_eom]
    cases h : pass1Records (decodeCtl p).1 .endOfInput head 256 with
    | eof st => rfl
    | stop st => rfl
    | fail e => rfl

theorem process2_eom_cut (p s : List Nat) (rest : List (Option (List Nat)))
    (tbl : List Sym)
    (hp : (decodeCtl p).2 = .endOfInput ∨ (decodeCtl p).2 = .endOfModule) :
    process2 (some (p ++ 26 :: s) :: rest) tbl = process2 [some p] tbl := by
  simp only [process2, process2Files, process2Ctl_eq, decodeCtl_eom_cut p s hp,
    pass2Records_eom]
  rcases hp with hp | hp
  · rw [hp]
    cases h : pass2Records tbl (decodeCtl p).1 .endOfInput [] 0 with
    | eof st => rfl
    | stop st => rfl
    | fail e => rfl
  · rw [hp, pass2Records_eom]
    cases h : pass2Records tbl (decodeCtl p).1 .endOfInput [] 0 with
    | eof st => rfl
    | stop st => rfl
    | fail e => rfl

/-! ## The run of main -/

theorem strrchr_of_mem (c : Char) : ∀ s : List Char, c ∈ s → ∃ t, strrchr s c = some t := by
  intro s
  induction s with
  | nil => intro h; simp at h
  | cons x xs ih =>
    intro h
    simp only [strrchr]
    cases hx : strrchr xs c with
    | some t => exact ⟨t, rfl⟩
    | none =>
      rcases List.mem_cons.mp h with rfl | hmem
      · exact ⟨c :: xs, by simp⟩
      · obtain ⟨t, ht⟩ := ih hmem
        rw [hx] at ht
        simp at ht

theorem checkEndings_defined : ∀ names : List String,
    (∀ a ∈ names, '.' ∈ a.data) → ∃ r, checkEndings names = some r := by
  intro names
  induction names with
  | nil => intro _; exact ⟨_, rfl⟩
  | cons a rest ih =>
    intro h
    obtain ⟨t, ht⟩ := strrchr_of_mem '.' a.data (h a (List.mem_cons_self _ _))
    obtain ⟨r, hr⟩ := ih (fun b hb => h b (List.mem_cons_of_mem _ hb))
    simp only [checkEndings, ht]
    split_ifs
    · exact ⟨_, rfl⟩
    · exact ⟨r, hr⟩
    · exact ⟨r, hr⟩

theorem startup_defined (disk : Disk) (argv : List String)
    (hdot : ∀ a ∈ argv.drop 2, '.' ∈ a.data) : ∃ r, startup disk argv = some r := by
  unfold startup
  split_ifs
  · exact ⟨_, rfl⟩
  · obtain ⟨r, hr⟩ := checkEndings_defined _ hdot
    rw [hr]
    cases r with
    | error e => exact ⟨_, rfl⟩
    | ok u =>
      simp only []
      cases outputName (argv.getD 1 "") with
      | error e => exact ⟨_, rfl⟩
      | ok bin =>
        simp only []
        split_ifs
        · exact ⟨_, rfl⟩
        · exact ⟨_, rfl⟩

/-! ## The checks of main before the passes -/

theorem strrchr_none (c : Char) : ∀ l : List Char, c ∉ l → strrchr l c = none := by
  intro l
  induction l with
  | nil => intro _; rfl
  | cons x xs ih =>
    intro h
    simp only [List.mem_cons, not_or] at h
    simp [strrchr, ih h.2, Ne.symm h.1]

/-- The function `strrchr` finds the suffix that starts at the last occurrence of the
character. -/
theorem strrchr_last (c : Char) (t : List Char) (ht : c ∉ t) :
    ∀ pre : List Char, strrchr (pre ++ c :: t) c = some (c :: t) := by
  intro pre
  induction pre with
  | nil => simp [strrchr, strrchr_none c t ht]
  | cons x xs ih => simp [strrchr, ih]

theorem checkEndings_append (good names : List String)
    (hgood : checkEndings good = some (.ok ())) :
    checkEndings (good ++ names) = checkEndings names := by
  induction good with
  | nil => rfl
  | cons a rest ih =>
    simp only [checkEndings] at hgood
    simp only [List.cons_append, checkEndings]
    cases hs : strrchr a.data '.' with
    | none => simp [hs] at hgood
    | some ending =>
      simp only [hs] at hgood ⊢
      split_ifs at hgood ⊢
      · simp at hgood
      · exact ih hgood
      · exact ih hgood

theorem checkEndings_cons_dot (name : String) (rest : List String) (pre ext : List Char)
    (hname : name.data = pre ++ '.' :: ext) (hext : '.' ∉ ext) :
    checkEndings (name :: rest) =
      if ext = "obj".data ∨ ext = "OBJ".data ∨ ext = "lib".data ∨ ext = "LIB".data
      then checkEndings rest else some (.error .badEnding) := by
  have hs : strrchr name.data '.' = some ('.' :: ext) := by
    rw [hname]; exact strrchr_last '.' ext hext pre
  have h1 : ('.' :: ext = ".obj".data) ↔ ext = "obj".data := by
    constructor
    · intro h; exact (List.cons.inj h).2
    · intro h; rw [h]
  have h2 : ('.' :: ext = ".OBJ".data) ↔ ext = "OBJ".data := by
    constructor
    · intro h; exact (List.cons.inj h).2
    · intro h; rw [h]
  have h3 : ('.' :: ext = ".lib".data) ↔ ext = "lib".data := by
    constructor
    · intro h; exact (List.cons.inj h).2
    · intro h; rw [h]
  have h4 : ('.' :: ext = ".LIB".data) ↔ ext = "LIB".data := by
    constructor
    · intro h; exact (List.cons.inj h).2
    · intro h; rw [h]
  simp only [checkEndings, hs, ne_eq, h1, h2, h3, h4]
  by_cases a1 : ext = "obj".data
  · simp [a1]
  · by_cases a2 : ext = "OBJ".data
    · simp [a2]
    · by_cases a3 : ext = "lib".data
      · simp [a3]
      · by_cases a4 : ext = "LIB".data
        · simp [a4]
        · simp [a1, a2, a3, a4]

theorem main_of_startup_error (disk : Disk) (argv : List String) (e : Err)
    (h : startup disk argv = some (.error e)) :
    main disk argv = .returned 1 (some e) disk := by
  simp [main, h, error]

theorem startup_of_bad_ending (disk : Disk) (a0 base : String) (inputs : List String)
    (h : checkEndings inputs = some (.error .badEnding)) :
    startup disk (a0 :: base :: inputs) = some (.error .badEnding) := by
  cases inputs with
  | nil => simp [checkEndings] at h
  | cons x xs =>
    simp only [startup, List.length_cons, List.drop_succ_cons, List.drop_zero, h]
    rw [if_neg (by omega)]

theorem outputName_short (base : String) (h : base.length ≤ 8) :
    outputName base = .ok (base ++ ".com") := by
  have hl : base.data.length ≤ 8 := h
  have ht : base.data.take (13 - 1) = base.data := List.take_of_length_le (by omega)
  simp only [outputName, ht]
  rw [if_neg (by omega)]
  rfl

theorem outputName_long (base : String) (h : 8 < base.length) :
    outputName base = .error .outputNameTooLong := by
  have hl : 8 < base.data.length := h
  simp only [outputName]
  rw [if_pos (by simp; omega)]

/-! ## Framing errors -/

theorem collect1Files_append (A B : List (Option (List Nat))) : ∀ head addr,
    collect1Files (A ++ B) head addr =
      match collect1Files A head addr with
      | .eof st => collect1Files B st.1 st.2
      | .stop st => .stop st
      | .fail e => .fail e := by
  induction A with
  | nil => intro head addr; simp [collect1Files]
  | cons f rest ih =>
    intro head addr
    cases f with
    | none => simp [collect1Files]
    | some fp =>
      simp only [List.cons_append, collect1Files]
      cases collect1Ctl fp head addr with
      | eof st => exact ih st.1 st.2
      | stop st => rfl
      | fail e => rfl

/-- The diagnostic of pass 1 for a framing error. -/
theorem pass1Records_framing (rs : List Record) (stop : Stop)
    (hbad : stop ≠ .endOfInput ∧ stop ≠ .endOfModule) (head : List Sym) (addr : Nat) :
    ∃ e, pass1Records rs stop head addr = .fail e ∧
      ((pass1Records rs .endOfInput head addr).final ≠ none →
        pass1Records [] stop head addr = .fail e) := by
  have h := pass1Records_append rs [] stop head addr
  rw [List.append_nil] at h
  cases hp : pass1Records rs .endOfInput head addr with
  | eof st =>
    rw [hp] at h
    simp only [] at h
    cases stop with
    | endOfInput => exact absurd rfl hbad.1
    | endOfModule => exact absurd rfl hbad.2
    | truncatedData => exact ⟨_, h, fun _ => rfl⟩
    | unterminatedDeclaration => exact ⟨_, h, fun _ => rfl⟩
    | unterminatedReference => exact ⟨_, h, fun _ => rfl⟩
    | unknownControlByte ch => exact ⟨_, h, fun _ => rfl⟩
  | stop st => exact absurd (pass1Records_stop rs _ _ _ _ hp) (by simp)
  | fail e =>
    rw [hp] at h
    exact ⟨e, h, fun hne => absurd rfl hne⟩

/-! ## Streams made of data bytes only -/

theorem decodeCtl_encodeData : ∀ bs : List Nat,
    decodeCtl (encodeData bs) = (bs.map Record.dataByte, .endOfInput) := by
  intro bs
  induction bs with
  | nil => simp [encodeData, decodeCtl]
  | cons b bs ih =>
    rw [encodeData, decodeCtl_cons, if_pos rfl]
    simp [Record.andThen, ih]

theorem pass1Records_dataBytes (head : List Sym) : ∀ (bs : List Nat) (addr : Nat),
    addr ≤ USHRT_MAX →
    pass1Records (bs.map Record.dataByte) .endOfInput head addr
      = if addr + bs.length ≤ USHRT_MAX then .eof (head, addr + bs.length)
        else .fail .exceeds65280 := by
  intro bs
  induction bs with
  | nil => intro addr h; simp [pass1Records, h]
  | cons b bs ih =>
    intro addr h
    simp only [List.map_cons, pass1Records, List.length_cons]
    by_cases h1 : addr + 1 > USHRT_MAX
    · rw [if_pos h1, if_neg (by omega)]
    · rw [if_neg h1, ih (addr + 1) (by omega)]
      by_cases h2 : addr + (bs.length + 1) ≤ USHRT_MAX
      · rw [if_pos (by omega), if_pos h2]
        congr 2; omega
      · rw [if_neg (by omega), if_neg h2]

theorem pass2Records_dataBytes (tbl : List Sym) : ∀ (bs fq : List Nat) (bin : Nat),
    bin ≤ BIN_MAX →
    pass2Records tbl (bs.map Record.dataByte) .endOfInput fq bin
      = if bin + bs.length ≤ BIN_MAX then .eof (fq ++ bs, bin + bs.length)
        else .fail .binaryTooLarge := by
  intro bs
  induction bs with
  | nil => intro fq bin h; simp [pass2Records, h]
  | cons b bs ih =>
    intro fq bin h
    simp only [List.map_cons, pass2Records, List.length_cons]
    by_cases h1 : bin = BIN_MAX
    · rw [if_pos h1, if_neg (by omega)]
    · rw [if_neg h1, ih _ (bin + 1) (by omega)]
      by_cases h2 : bin + (bs.length + 1) ≤ BIN_MAX
      · rw [if_pos (by omega), if_pos h2]
        congr 2
        · simp
        · omega
      · rw [if_neg (by omega), if_neg h2]

/-! ## The invariant of the collection -/

theorem cstr_length_le (buf : List Nat) : (cstr buf).length ≤ buf.length := by
  unfold cstr
  induction buf with
  | nil => simp
  | cons c t ih =>
    simp only [List.takeWhile_cons]
    split
    · simp only [List.length_cons]; omega
    · simp

theorem symbolOf_length (name : List Nat) : (symbolOf name).length ≤ 15 := by
  unfold symbolOf
  have h1 := cstr_length_le (name.take 15)
  have h2 : (name.take 15).length ≤ 15 := by simp
  omega

/-- One file of pass 1 that ends without an error, started with distinct names and a
counter between 0x100 and 0xFFFF: entries are only added at the end, the names stay
distinct, and each new entry has a name of 1 to 15 bytes and an address between 0x100
and 0xFFFF. -/
theorem collect1Ctl_invariant (s : List Nat) (head : List Sym) (addr : Nat)
    (st : List Sym × Nat) (hn : (head.map Sym.symbol).Nodup)
    (ha : 0x100 ≤ addr ∧ addr ≤ 0xFFFF)
    (h : (collect1Ctl s head addr).final = some st) :
    ∃ new, st.1 = head ++ new ∧ (st.1.map Sym.symbol).Nodup ∧
      (∀ e ∈ new, e.symbol ≠ [] ∧ e.symbol.length ≤ 15 ∧ 0x100 ≤ e.addr ∧ e.addr ≤ 0xFFFF) ∧
      0x100 ≤ st.2 ∧ st.2 ≤ 0xFFFF := by
  rw [collect1Ctl_eq] at h
  obtain ⟨h1, h2, h3, h4, h5⟩ := pass1Records_final _ _ _ _ _ h
  have hbound : addr + size (decodeCtl s).1 ≤ 0xFFFF := by
    by_cases hz : size (decodeCtl s).1 = 0
    · omega
    · have := h3 hz; unfold USHRT_MAX at this; omega
  refine ⟨declared addr (decodeCtl s).1, h1, h4 hn, ?_, by omega, by omega⟩
  intro e he
  obtain ⟨m1, m2, name, _, m3⟩ := mem_declared _ _ _ he
  refine ⟨h5 e he, ?_, by omega, by omega⟩
  rw [m3]; exact symbolOf_length name

theorem collect1Files_invariant : ∀ (files : List (Option (List Nat))) (head : List Sym)
    (addr : Nat) (st : List Sym × Nat), (head.map Sym.symbol).Nodup →
    (0x100 ≤ addr ∧ addr ≤ 0xFFFF) →
    (collect1Files files head addr).final = some st →
    ∃ new, st.1 = head ++ new ∧ (st.1.map Sym.symbol).Nodup ∧
      (∀ e ∈ new, e.symbol ≠ [] ∧ e.symbol.length ≤ 15 ∧ 0x100 ≤ e.addr ∧ e.addr ≤ 0xFFFF) ∧
      0x100 ≤ st.2 ∧ st.2 ≤ 0xFFFF := by
  intro files
  induction files with
  | nil =>
    intro head addr st hn ha h
    simp only [collect1Files, Scan.final, Option.some.injEq] at h
    subst h
    exact ⟨[], by simp, hn, by simp, ha.1, ha.2⟩
  | cons f rest ih =>
    intro head addr st hn ha h
    cases f with
    | none => simp [collect1Files, Scan.final] at h
    | some fp =>
      simp only [collect1Files] at h
      cases hc : collect1Ctl fp head addr with
      | fail e => simp [hc, Scan.final] at h
      | stop st2 =>
        rw [hc] at h
        simp only [Scan.final, Option.some.injEq] at h
        subst h
        exact collect1Ctl_invariant fp head addr st2 hn ha (by rw [hc]; rfl)
      | eof st2 =>
        rw [hc] at h
        obtain ⟨head2, addr2⟩ := st2
        simp only [] at h
        obtain ⟨new1, a1, a2, a3, a4, a5⟩ :=
          collect1Ctl_invariant fp head addr (head2, addr2) hn ha (by rw [hc]; rfl)
        obtain ⟨new2, b1, b2, b3, b4, b5⟩ := ih head2 addr2 st a2 ⟨a4, a5⟩ h
        simp only at a1
        refine ⟨new1 ++ new2, by rw [b1, a1, List.append_assoc], b2, ?_, b4, b5⟩
        intro e he
        rcases List.mem_append.mp he with he | he
        · exact a3 e he
        · exact b3 e he

/-! ## Pass 2 behind a pass 1 that succeeded -/

theorem pass1Records_good_stop (rs : List Record) (stop : Stop) (head : List Sym)
    (addr : Nat) (st : List Sym × Nat)
    (h : (pass1Records rs stop head addr).final = some st) :
    stop = .endOfInput ∨ stop = .endOfModule := by
  cases hp : pass1Records rs stop head addr with
  | eof st2 => exact Or.inl (pass1Records_eof rs stop head addr st2 hp)
  | stop st2 => exact Or.inr (pass1Records_stop rs stop head addr st2 hp)
  | fail e => simp [hp, Scan.final] at h

/-- On records that fit under the ceiling and end without a framing error, pass 2
returns 0 or stops at a reference whose symbol is not in the collection. -/
theorem pass2Records_cases (tbl : List Sym) (rs : List Record) (stop : Stop)
    (hstop : stop = .endOfInput ∨ stop = .endOfModule) : ∀ fq bin,
    bin + size rs ≤ BIN_MAX →
    (∃ st, (pass2Records tbl rs stop fq bin).final = some st) ∨
    (∃ name, Record.reference name ∈ rs ∧ lookup (symbolOf name) tbl = none ∧
      pass2Records tbl rs stop fq bin = .fail (.undefinedReference (symbolOf name))) := by
  induction rs with
  | nil =>
    intro fq bin _
    left
    rcases hstop with h | h <;> subst h <;> exact ⟨_, rfl⟩
  | cons r rs ih =>
    intro fq bin hb
    have hmem : ∀ fq2 bin2, bin2 + size rs ≤ BIN_MAX →
        (∃ st, (pass2Records tbl rs stop fq2 bin2).final = some st) ∨
        (∃ name, Record.reference name ∈ r :: rs ∧ lookup (symbolOf name) tbl = none ∧
          pass2Records tbl rs stop fq2 bin2 = .fail (.undefinedReference (symbolOf name))) := by
      intro fq2 bin2 hb2
      rcases ih fq2 bin2 hb2 with h | ⟨name, h1, h2, h3⟩
      · exact Or.inl h
      · exact Or.inr ⟨name, List.mem_cons_of_mem _ h1, h2, h3⟩
    cases r with
    | dataByte b =>
      simp only [size_cons, Record.bytes] at hb
      simp only [pass2Records]
      rw [if_neg (by omega)]
      exact hmem _ _ (by omega)
    | declaration name =>
      simp only [size_cons, Record.bytes] at hb
      simp only [pass2Records]
      exact hmem _ _ (by omega)
    | reference name =>
      simp only [size_cons, Record.bytes] at hb
      simp only [pass2Records]
      cases hl : lookup (symbolOf name) tbl with
      | none => exact Or.inr ⟨name, List.mem_cons_self _ _, hl, rfl⟩
      | some e =>
        simp only []
        rw [if_neg (by omega), if_neg (by omega)]
        exact hmem _ _ (by omega)
    | marker =>
      simp only [size_cons, Record.bytes] at hb
      simp only [pass2Records]
      exact hmem _ _ (by omega)

/-! ## Names as C strings -/

theorem cstr_append_nul (p r : List Nat) : cstr (p ++ 0 :: r) = cstr p := by
  unfold cstr
  induction p with
  | nil => simp
  | cons c t ih =>
    simp only [List.cons_append, List.takeWhile_cons]
    split
    · rw [ih]
    · rfl

theorem symbolOf_append_nul (p x : List Nat) : symbolOf (p ++ 0 :: x) = symbolOf p := by
  unfold symbolOf
  by_cases h : p.length < 15
  · have h1 : (p ++ 0 :: x).take 15 = p ++ 0 :: x.take (15 - p.length - 1) := by
      rw [List.take_append_eq_append_take, List.take_of_length_le (by omega)]
      have : 15 - p.length = (15 - p.length - 1) + 1 := by omega
      rw [this, List.take_succ_cons]
      simp
    rw [h1, cstr_append_nul, List.take_of_length_le (by omega)]
  · rw [List.take_append_of_le_length (by omega)]

theorem process2Ctl_reference (tbl : List Sym) (name s fq : List Nat) (bin : Nat)
    (hname : 2 ∉ name) :
    process2Ctl tbl (2 :: (name ++ 2 :: s)) fq bin =
      match lookup (symbolOf name) tbl with
      | none => .fail (.undefinedReference (symbolOf name))
      | some curr =>
        if bin = BIN_MAX then .fail .binaryTooLarge
        else if bin + 1 = BIN_MAX then .fail .binaryTooLarge
        else process2Ctl tbl s
          (fq ++ [curr.addr &&& 0xff, (curr.addr >>> 8) &&& 0xff]) (bin + 2) := by
  rw [process2Ctl_eq, decodeCtl_reference name s hname]
  simp only [Record.andThen, pass2Records]
  cases lookup (symbolOf name) tbl with
  | none => rfl
  | some curr => simp only [process2Ctl_eq]

theorem collect1Ctl_declaration (name s : List Nat) (head : List Sym) (addr : Nat)
    (hname : 1 ∉ name) :
    collect1Ctl (1 :: (name ++ 1 :: s)) head addr =
      if symbolOf name = [] then .fail .emptySymbol
      else
        match lookup (symbolOf name) head with
        | some _ => .fail (.duplicateSymbol (symbolOf name))
        | none => collect1Ctl s (head ++ [⟨symbolOf name, addr⟩]) addr := by
  rw [collect1Ctl_eq, decodeCtl_declaration name s hname]
  simp only [Record.andThen, pass1Records, List.length_eq_zero]
  by_cases he : symbolOf name = []
  · rw [if_pos he, if_pos he]
  · rw [if_neg he, if_neg he]
    cases lookup (symbolOf name) head with
    | some e => rfl
    | none => simp only [collect1Ctl_eq]

theorem lookup_append_new (symbol : List Nat) (head : List Sym) (e : Sym)
    (h : lookup symbol head = none) :
    lookup symbol (head ++ [e]) = if symbol = e.symbol then some e else none := by
  induction head with
  | nil => simp [lookup]
  | cons c t ih =>
    simp only [lookup] at h
    split_ifs at h with hc
    simp only [List.cons_append, lookup, if_neg hc]
    exact ih h

/-! ## The claims -/

/-- C1: when the link succeeds, the image is the concatenation, in input order over the
records decoded up to the first EndOfModule, of the payload byte of each data byte and
of the two bytes `[addr % 256, addr / 256]` of each reference, `addr` being the address
pass 1 recorded for the symbol of the referenced name; declarations and markers add
nothing. The position of the declaration relative to the reference plays no part. -/
theorem link_image_is_concatenation (ss : List (List Nat)) (image : List Nat)
    (h : link (ss.map some) [sentinel] = .ok image) :
    ∃ tbl addr, collect1 (ss.map some) [sentinel] = .ok (tbl, addr) ∧
      imageOf tbl (decodeFiles ss).1 = some image := by
  obtain ⟨tbl, addr, h1, h2⟩ := link_ok _ _ _ h
  refine ⟨tbl, addr, h1, ?_⟩
  obtain ⟨bin, hb⟩ := process2_ok ss tbl image h2
  obtain ⟨img, hi1, hi2, _⟩ :=
    pass2Records_final tbl (collect1_table ss tbl addr h1).2.2.2.2 _ _ _ _ _ hb
  simp only [List.nil_append] at hi2
  rw [hi1, hi2]

/-- Witness of C1 on a forward reference across files: the first file refers to `X` and
the second one declares it. -/
theorem link_image_is_concatenation_witness :
    link ([[2, 88, 2, 0, 0x33], [0, 0x11, 0, 0x22, 1, 88, 1]].map some) [sentinel]
        = .ok [0x05, 0x01, 0x33, 0x11, 0x22] ∧
      ∃ tbl addr,
        collect1 ([[2, 88, 2, 0, 0x33], [0, 0x11, 0, 0x22, 1, 88, 1]].map some) [sentinel]
          = .ok (tbl, addr) ∧
        imageOf tbl (decodeFiles [[2, 88, 2, 0, 0x33], [0, 0x11, 0, 0x22, 1, 88, 1]]).1
          = some [0x05, 0x01, 0x33, 0x11, 0x22] :=
  ⟨rfl, link_image_is_concatenation _ _ rfl⟩

/-- C2: when pass 1 succeeds, the address recorded for a declared symbol is
`0x100 + d + 2 * r`, with `d` data bytes and `r` references among the records that come
before the declaration in the records of all files in input order; declarations and
markers do not count. -/
theorem declared_address (ss : List (List Nat)) (tbl : List Sym) (addr : Nat)
    (h : collect1 (ss.map some) [sentinel] = .ok (tbl, addr))
    (pre post : List Record) (name : List Nat)
    (hrs : (decodeFiles ss).1 = pre ++ Record.declaration name :: post) :
    lookup (symbolOf name) tbl
      = some ⟨symbolOf name, 0x100 + countData pre + 2 * countRef pre⟩ := by
  rw [lookup_declared ss tbl addr h pre post name hrs, size_eq_count, Nat.add_assoc]

/-- Witness of C2: `Y` is declared in the second file after one data byte, one reference
and one marker of the first file and one data byte of its own file. -/
theorem declared_address_witness :
    lookup (symbolOf [89]) [sentinel, ⟨[88], 0x100⟩, ⟨[89], 0x104⟩]
      = some ⟨symbolOf [89], 0x100 + countData [.declaration [88], .dataByte 7,
          .reference [88], .marker, .dataByte 9]
        + 2 * countRef [.declaration [88], .dataByte 7, .reference [88], .marker,
          .dataByte 9]⟩ :=
  declared_address [[1, 88, 1, 0, 7, 2, 88, 2, 3], [0, 9, 1, 89, 1, 0, 1]]
    [sentinel, ⟨[88], 0x100⟩, ⟨[89], 0x104⟩] 0x105 rfl
    [.declaration [88], .dataByte 7, .reference [88], .marker, .dataByte 9] [.dataByte 1]
    [89] rfl

/-- C3: when the link succeeds, the address recorded for a declaration that is processed
(the file list is cut right before a declaration, at a point the decoding reaches) is
0x100 plus the number of bytes pass 2 has written when it gets to that point, and these
bytes start the image: the address is the load address of the byte that follows the
declaration point. On the two streams of the scenario the image is 11 22 02 01 33 and
`X` has the address 0x102. -/
theorem address_is_load_address :
    (∀ (F G : List (List Nat)) (p name s : List Nat) (tbl : List Sym) (addr : Nat)
      (image : List Nat),
      collect1 ((F ++ (p ++ 1 :: (name ++ 1 :: s)) :: G).map some) [sentinel]
        = .ok (tbl, addr) →
      process2 ((F ++ (p ++ 1 :: (name ++ 1 :: s)) :: G).map some) tbl = .ok image →
      1 ∉ name →
      (decodeFiles (F ++ [p])).2 = .endOfInput →
      ∃ fq, process2Files tbl ((F ++ [p]).map some) [] 0 = .eof (fq, fq.length) ∧
        lookup (symbolOf name) tbl = some ⟨symbolOf name, 0x100 + fq.length⟩ ∧
        ∃ rest, image = fq ++ rest) ∧
    (collect1 ([[0, 0x11, 0, 0x22, 1, 88, 1], [2, 88, 2, 0, 0x33]].map some) [sentinel]
        = .ok ([sentinel, ⟨[88], 0x102⟩], 0x105) ∧
      link ([[0, 0x11, 0, 0x22, 1, 88, 1], [2, 88, 2, 0, 0x33]].map some) [sentinel]
        = .ok [0x11, 0x22, 0x02, 0x01, 0x33]) := by
  refine ⟨?_, rfl, rfl⟩
  intro F G p name s tbl addr image h1 h2 hname hp
  have hcut := decodeFiles_cut F G p (1 :: (name ++ 1 :: s)) hp
  have hq : ∃ post, (decodeFiles ((1 :: (name ++ 1 :: s)) :: G)).1
      = Record.declaration name :: post := by
    rw [decodeFiles_cons, decodeCtl_declaration name s hname]
    by_cases hs : (decodeCtl s).2 = .endOfInput
    · exact ⟨(decodeCtl s).1 ++ (decodeFiles G).1, by simp [Record.andThen, hs]⟩
    · exact ⟨(decodeCtl s).1, by simp [Record.andThen, hs]⟩
  obtain ⟨post, hpost⟩ := hq
  have hrs : (decodeFiles (F ++ (p ++ 1 :: (name ++ 1 :: s)) :: G)).1
      = (decodeFiles (F ++ [p])).1 ++ Record.declaration name :: post := by
    rw [hcut, hpost]
  obtain ⟨bin, hb⟩ := process2_ok _ tbl image h2
  rw [hrs] at hb
  obtain ⟨fq, hf1, hf2, rest, hf3⟩ :=
    pass2Records_split tbl (collect1_table _ tbl addr h1).2.2.2.2 _ _ _ _ hb
  refine ⟨fq, ?_, ?_, rest, hf3⟩
  · rw [process2Files_eq, hp]; exact hf1
  · rw [hf2]; exact lookup_declared _ tbl addr h1 _ post name hrs

/-- Witness of C3: the scenario itself, cut before the declaration of `X` in the first
stream, where pass 2 has written 11 22. -/
theorem address_is_load_address_witness :
    ∃ fq, process2Files [sentinel, ⟨[88], 0x102⟩] (([] ++ [[0, 0x11, 0, 0x22]]).map some) [] 0
        = .eof (fq, fq.length) ∧
      lookup (symbolOf [88]) [sentinel, ⟨[88], 0x102⟩]
        = some ⟨symbolOf [88], 0x100 + fq.length⟩ ∧
      ∃ rest, [0x11, 0x22, 0x02, 0x01, 0x33] = fq ++ rest :=
  address_is_load_address.1 [] [[2, 88, 2, 0, 0x33]] [0, 0x11, 0, 0x22] [88] []
    [sentinel, ⟨[88], 0x102⟩] 0x105 [0x11, 0x22, 0x02, 0x01, 0x33] rfl rfl (by decide) rfl

/-- C4, on the code: a stream of 65,279 data bytes links to the 65,279-byte image, but a
stream of exactly 65,280 data bytes is refused by pass 1 with "final binary exceeds
65,280 bytes" although pass 2 on its own writes all 65,280 bytes; 65,281 data bytes are
refused with the same diagnostic. No output is kept for a refused input. -/
theorem data_byte_ceiling (b : Nat) :
    link [some (dataStream b 65279)] [sentinel] = .ok (List.replicate 65279 b) ∧
    link [some (dataStream b 65280)] [sentinel] = .error .exceeds65280 ∧
    kept (link [some (dataStream b 65280)] [sentinel]) = none ∧
    process2 [some (dataStream b 65280)] [sentinel] = .ok (List.replicate 65280 b) ∧
    link [some (dataStream b 65281)] [sentinel] = .error .exceeds65280 ∧
    kept (link [some (dataStream b 65281)] [sentinel]) = none := by
  have h1 := link_dataStream b 65279
  have h2 := link_dataStream b 65280
  have h3 := link_dataStream b 65281
  have h4 := process2_dataStream b 65280 [sentinel]
  simp only [Nat.le_refl, if_true] at h1 h4
  rw [if_neg (by omega)] at h2 h3
  rw [h2, h3]
  exact ⟨h1, rfl, rfl, h4, rfl, rfl⟩

/-- C5 as stated fails: each of the two files, decoded from its start, holds a
declaration of `X`, and the link succeeds with the image 07, because the EndOfModule
byte of the first file ends both passes before the second declaration is read. -/
theorem duplicate_behind_end_of_module_links :
    Record.declaration [88] ∈ (decodeCtl [0, 7, 1, 88, 1, 26]).1 ∧
    Record.declaration [88] ∈ (decodeCtl [1, 88, 1]).1 ∧
    link ([[0, 7, 1, 88, 1, 26], [1, 88, 1]].map some) [sentinel] = .ok [7] ∧
    kept (link ([[0, 7, 1, 88, 1, 26], [1, 88, 1]].map some) [sentinel]) = some [7] :=
  ⟨by decide, by decide, rfl, rfl⟩

/-- C5 amended: when two declarations with the same name are among the records decoded
before the first EndOfModule (in one file or in two), pass 1 returns an error, so the
link fails and no output image is kept. -/
theorem duplicate_declaration_fails (ss : List (List Nat)) (pre mid post : List Record)
    (name : List Nat)
    (hrs : (decodeFiles ss).1
      = pre ++ Record.declaration name :: (mid ++ Record.declaration name :: post)) :
    ∃ e, collect1 (ss.map some) [sentinel] = .error e ∧
      link (ss.map some) [sentinel] = .error e ∧
      kept (link (ss.map some) [sentinel]) = none := by
  cases hc : collect1 (ss.map some) [sentinel] with
  | error e => exact ⟨e, rfl, collect1_error_link _ _ e hc, by
      rw [collect1_error_link _ _ e hc]; rfl⟩
  | ok st =>
    exfalso
    obtain ⟨h1, _, _, h4, _⟩ := collect1_table ss st.1 st.2 hc
    rw [h1, hrs, declared_append] at h4
    simp only [declared, declared_append, List.map_cons, List.map_append,
      List.nodup_cons] at h4
    have h5 := (List.nodup_append.mp h4.2).2.1
    rw [List.nodup_cons] at h5
    exact h5.1 (by simp)

/-- Witness of C5 amended: `X` declared in the first file and again in the second. -/
theorem duplicate_declaration_fails_witness :
    ∃ e, collect1 ([[0, 7, 1, 88, 1], [3, 1, 88, 1]].map some) [sentinel] = .error e ∧
      link ([[0, 7, 1, 88, 1], [3, 1, 88, 1]].map some) [sentinel] = .error e ∧
      kept (link ([[0, 7, 1, 88, 1], [3, 1, 88, 1]].map some) [sentinel]) = none :=
  duplicate_declaration_fails [[0, 7, 1, 88, 1], [3, 1, 88, 1]] [.dataByte 7] [.marker] []
    [88] rfl

/-- C6 as stated fails, in three ways. A reference to "@" resolves to the preloaded
entry although nothing is declared, and the link writes 00 00. A reference in a file
behind an EndOfModule byte is never read. A reference whose 16-byte name is the name of
no declaration resolves to the declaration that shares its first 15 bytes. -/
theorem undeclared_reference_links :
    ((decodeFiles [[2, 64, 2]]).1 = [Record.reference [64]] ∧
      link ([[2, 64, 2]].map some) [sentinel] = .ok [0, 0]) ∧
    (Record.reference [88] ∈ (decodeCtl [2, 88, 2]).1 ∧ (decodeCtl [26]).1 = [] ∧
      link ([[26], [2, 88, 2]].map some) [sentinel] = .ok []) ∧
    ((decodeFiles [[1, 65, 66, 67, 68, 69, 70, 71, 72, 73, 74, 75, 76, 77, 78, 79, 80, 1,
          2, 65, 66, 67, 68, 69, 70, 71, 72, 73, 74, 75, 76, 77, 78, 79, 81, 2]]).1
        = [Record.declaration [65, 66, 67, 68, 69, 70, 71, 72, 73, 74, 75, 76, 77, 78, 79, 80],
           Record.reference [65, 66, 67, 68, 69, 70, 71, 72, 73, 74, 75, 76, 77, 78, 79, 81]] ∧
      link ([[1, 65, 66, 67, 68, 69, 70, 71, 72, 73, 74, 75, 76, 77, 78, 79, 80, 1,
          2, 65, 66, 67, 68, 69, 70, 71, 72, 73, 74, 75, 76, 77, 78, 79, 81, 2]].map some)
        [sentinel] = .ok [0, 1]) :=
  ⟨⟨by decide, rfl⟩, ⟨by decide, by decide, rfl⟩, ⟨by decide, rfl⟩⟩

/-- C6 amended: when the records decoded before the first EndOfModule hold a reference
whose symbol (its name cut to 15 bytes and at the first NUL) is not "@" and is the
symbol of no declaration among these records, the link fails and no output image is
kept. -/
theorem undefined_reference_fails (ss : List (List Nat)) (name : List Nat)
    (href : Record.reference name ∈ (decodeFiles ss).1)
    (hat : symbolOf name ≠ sentinel.symbol)
    (hdecl : ∀ m, Record.declaration m ∈ (decodeFiles ss).1 → symbolOf m ≠ symbolOf name) :
    ∃ e, link (ss.map some) [sentinel] = .error e ∧
      kept (link (ss.map some) [sentinel]) = none := by
  cases hc : collect1 (ss.map some) [sentinel] with
  | error e => exact ⟨e, collect1_error_link _ _ e hc, by
      rw [collect1_error_link _ _ e hc]; rfl⟩
  | ok st =>
    obtain ⟨tbl, addr⟩ := st
    obtain ⟨h1, _, _, _, _⟩ := collect1_table ss tbl addr hc
    have hl : lookup (symbolOf name) tbl = none := by
      rw [lookup_eq_none_iff, h1]
      simp only [List.map_cons, List.mem_cons, List.mem_map, not_or, not_exists, not_and]
      refine ⟨hat, ?_⟩
      intro e he hsym
      obtain ⟨_, _, m, hm, hms⟩ := mem_declared _ _ _ he
      exact hdecl m hm (by rw [← hms, hsym])
    obtain ⟨e, he⟩ := process2_error ss tbl (pass2Records_undefined tbl name hl _ _ _ _ href)
    have hlink : link (ss.map some) [sentinel] = .error e := by
      rw [link_of_passes _ _ tbl addr hc, he]
    exact ⟨e, hlink, by rw [hlink]; rfl⟩

/-- Witness of C6 amended: `Y` is referred to and only `X` is declared. -/
theorem undefined_reference_fails_witness :
    ∃ e, link ([[1, 88, 1, 0, 7], [2, 89, 2]].map some) [sentinel] = .error e ∧
      kept (link ([[1, 88, 1, 0, 7], [2, 89, 2]].map some) [sentinel]) = none :=
  undefined_reference_fails [[1, 88, 1, 0, 7], [2, 89, 2]] [89] (by decide) (by decide)
    (by
      intro m hm
      have hd : (decodeFiles [[1, 88, 1, 0, 7], [2, 89, 2]]).1
          = [.declaration [88], .dataByte 7, .reference [89]] := by decide
      rw [hd] at hm
      simp at hm
      subst hm
      decide)

/-- C7: a referenced name that shares its first 15 bytes with a declared name of 20
bytes stands for the declared symbol. In every link that succeeds, the reference finds
the entry of that declaration and contributes its address, low byte first. And the
stream made of just the declaration and the reference decodes to these two records, all
name bytes being consumed, and links to the image 00 01 (the address 0x100), provided
the names hold no delimiter byte and the symbol is neither empty nor "@". -/
theorem truncated_names_alias :
    (∀ (ss : List (List Nat)) (image d r : List Nat) (pre post : List Record),
      link (ss.map some) [sentinel] = .ok image →
      d.length = 20 → r.take 15 = d.take 15 →
      (decodeFiles ss).1 = pre ++ Record.declaration d :: post →
      ∃ tbl addr, collect1 (ss.map some) [sentinel] = .ok (tbl, addr) ∧
        lookup (symbolOf r) tbl = some ⟨symbolOf d, 0x100 + size pre⟩ ∧
        contribution tbl (.reference r)
          = some [(0x100 + size pre) % 256, (0x100 + size pre) / 256]) ∧
    (∀ d r : List Nat, d.length = 20 → r.take 15 = d.take 15 → 1 ∉ d → 2 ∉ r →
      symbolOf d ≠ [] → symbolOf d ≠ sentinel.symbol →
      decodeFiles [1 :: (d ++ 1 :: 2 :: (r ++ [2]))]
          = ([.declaration d, .reference r], .endOfInput) ∧
        link [some (1 :: (d ++ 1 :: 2 :: (r ++ [2])))] [sentinel] = .ok [0x00, 0x01]) := by
  constructor
  · intro ss image d r pre post h _ hpre hrs
    obtain ⟨tbl, addr, h1, _⟩ := link_ok _ _ _ h
    have hsym : symbolOf r = symbolOf d := by unfold symbolOf; rw [hpre]
    have hl := lookup_declared ss tbl addr h1 pre post d hrs
    refine ⟨tbl, addr, h1, by rw [hsym]; exact hl, ?_⟩
    simp only [contribution, hsym, hl]
  · intro d r _ hpre hd hr hne hat
    have hsym : symbolOf r = symbolOf d := by unfold symbolOf; rw [hpre]
    have hdec : decodeFiles [1 :: (d ++ 1 :: 2 :: (r ++ [2]))]
        = ([.declaration d, .reference r], .endOfInput) := by
      rw [decodeFiles_cons, decodeCtl_declaration d _ hd, decodeCtl_reference r [] hr]
      simp [Record.andThen, decodeCtl, decodeFiles]
    refine ⟨hdec, ?_⟩
    have hlen : (symbolOf d).length ≠ 0 := fun h => hne (List.length_eq_zero.mp h)
    have hl0 : lookup (symbolOf d) [sentinel] = none := by
      rw [lookup_eq_none_iff]; simpa using hat
    have hl1 : lookup (symbolOf d) ([sentinel] ++ [⟨symbolOf d, 256⟩])
        = some ⟨symbolOf d, 256⟩ := by
      simp [lookup, hat]
    have h1 := collect1Files_eq [1 :: (d ++ 1 :: 2 :: (r ++ [2]))] [sentinel] 0x100
    have h2 := process2Files_eq ([sentinel] ++ [⟨symbolOf d, 256⟩])
      [1 :: (d ++ 1 :: 2 :: (r ++ [2]))] [] 0
    simp only [List.map_cons, List.map_nil] at h1 h2
    have hc : collect1 [some (1 :: (d ++ 1 :: 2 :: (r ++ [2])))] [sentinel]
        = .ok ([sentinel] ++ [⟨symbolOf d, 256⟩], 258) := by
      rw [collect1, h1, hdec]
      simp [pass1Records, hlen, hl0, USHRT_MAX]
    have hp : process2 [some (1 :: (d ++ 1 :: 2 :: (r ++ [2])))]
        ([sentinel] ++ [⟨symbolOf d, 256⟩]) = .ok [0, 1] := by
      rw [process2, h2, hdec]
      simp only [pass2Records, hsym, hl1]
      simp [BIN_MAX]
      decide
    rw [link_of_passes _ _ _ _ hc, hp]

/-- Witness of C7: `ABCDEFGHIJKLMNOPQRST` is declared behind three data bytes and
`ABCDEFGHIJKLMNOxyz` is referred to in the next file, the reference contributes 03 01;
and the stream of just this declaration and this reference links to 00 01. -/
theorem truncated_names_alias_witness :
    (∃ tbl addr,
      collect1 ([[0, 1, 0, 2, 0, 3, 1, 65, 66, 67, 68, 69, 70, 71, 72, 73, 74, 75, 76, 77,
          78, 79, 80, 81, 82, 83, 84, 1],
        [2, 65, 66, 67, 68, 69, 70, 71, 72, 73, 74, 75, 76, 77, 78, 79, 120, 121, 122,
          2]].map some) [sentinel] = .ok (tbl, addr) ∧
      lookup (symbolOf [65, 66, 67, 68, 69, 70, 71, 72, 73, 74, 75, 76, 77, 78, 79, 120,
          121, 122]) tbl
        = some ⟨symbolOf [65, 66, 67, 68, 69, 70, 71, 72, 73, 74, 75, 76, 77, 78, 79, 80,
            81, 82, 83, 84], 0x100 + size [.dataByte 1, .dataByte 2, .dataByte 3]⟩ ∧
      contribution tbl (.reference [65, 66, 67, 68, 69, 70, 71, 72, 73, 74, 75, 76, 77,
          78, 79, 120, 121, 122])
        = some [(0x100 + size [.dataByte 1, .dataByte 2, .dataByte 3]) % 256,
            (0x100 + size [.dataByte 1, .dataByte 2, .dataByte 3]) / 256]) ∧
    (decodeFiles [1 :: ([65, 66, 67, 68, 69, 70, 71, 72, 73, 74, 75, 76, 77, 78, 79, 80,
          81, 82, 83, 84] ++ 1 :: 2 :: ([65, 66, 67, 68, 69, 70, 71, 72, 73, 74, 75, 76,
          77, 78, 79, 120, 121, 122] ++ [2]))]
        = ([.declaration [65, 66, 67, 68, 69, 70, 71, 72, 73, 74, 75, 76, 77, 78, 79, 80,
              81, 82, 83, 84],
            .reference [65, 66, 67, 68, 69, 70, 71, 72, 73, 74, 75, 76, 77, 78, 79, 120,
              121, 122]], .endOfInput) ∧
      link [some (1 :: ([65, 66, 67, 68, 69, 70, 71, 72, 73, 74, 75, 76, 77, 78, 79, 80,
          81, 82, 83, 84] ++ 1 :: 2 :: ([65, 66, 67, 68, 69, 70, 71, 72, 73, 74, 75, 76,
          77, 78, 79, 120, 121, 122] ++ [2])))] [sentinel] = .ok [0x00, 0x01]) :=
  ⟨truncated_names_alias.1
    [[0, 1, 0, 2, 0, 3, 1, 65, 66, 67, 68, 69, 70, 71, 72, 73, 74, 75, 76, 77, 78, 79, 80,
        81, 82, 83, 84, 1],
      [2, 65, 66, 67, 68, 69, 70, 71, 72, 73, 74, 75, 76, 77, 78, 79, 120, 121, 122, 2]]
    [1, 2, 3, 3, 1]
    [65, 66, 67, 68, 69, 70, 71, 72, 73, 74, 75, 76, 77, 78, 79, 80, 81, 82, 83, 84]
    [65, 66, 67, 68, 69, 70, 71, 72, 73, 74, 75, 76, 77, 78, 79, 120, 121, 122]
    [.dataByte 1, .dataByte 2, .dataByte 3]
    [.reference [65, 66, 67, 68, 69, 70, 71, 72, 73, 74, 75, 76, 77, 78, 79, 120, 121, 122]]
    rfl rfl rfl (by decide),
   truncated_names_alias.2
    [65, 66, 67, 68, 69, 70, 71, 72, 73, 74, 75, 76, 77, 78, 79, 80, 81, 82, 83, 84]
    [65, 66, 67, 68, 69, 70, 71, 72, 73, 74, 75, 76, 77, 78, 79, 120, 121, 122]
    rfl rfl (by decide) (by decide) (by decide) (by decide)⟩

/-- C8: for a stream `p` that decodes into whole records (to its end or to an
EndOfModule byte), linking `p ++ [0x1A] ++ s` followed by any further files, readable or
not, gives the same result, error or image, as linking `p` alone, and the same output
is kept. -/
theorem end_of_module_short_circuit (p s : List Nat) (rest : List (Option (List Nat)))
    (hp : (decodeCtl p).2 = .endOfInput ∨ (decodeCtl p).2 = .endOfModule) :
    link (some (p ++ [0x1A] ++ s) :: rest) [sentinel] = link [some p] [sentinel] ∧
      kept (link (some (p ++ [0x1A] ++ s) :: rest) [sentinel])
        = kept (link [some p] [sentinel]) := by
  have hlink : link (some (p ++ [0x1A] ++ s) :: rest) [sentinel]
      = link [some p] [sentinel] := by
    rw [List.append_assoc, List.singleton_append]
    unfold link
    rw [collect1_eom_cut p s rest _ hp]
    cases collect1 [some p] [sentinel] with
    | error e => rfl
    | ok st => exact process2_eom_cut p s rest st.1 hp
  exact ⟨hlink, by rw [hlink]⟩

/-- Witness of C8: the bytes behind 0x1A are no records, the second file holds an empty
declaration and the third cannot be opened. -/
theorem end_of_module_short_circuit_witness :
    link (some ([0, 7, 1, 88, 1, 2, 88, 2] ++ [0x1A] ++ [9, 9]) :: [some [1, 1], none])
        [sentinel] = link [some [0, 7, 1, 88, 1, 2, 88, 2]] [sentinel] ∧
      kept (link (some ([0, 7, 1, 88, 1, 2, 88, 2] ++ [0x1A] ++ [9, 9]) ::
          [some [1, 1], none]) [sentinel])
        = kept (link [some [0, 7, 1, 88, 1, 2, 88, 2]] [sentinel]) :=
  end_of_module_short_circuit [0, 7, 1, 88, 1, 2, 88, 2] [9, 9] [some [1, 1], none]
    (by decide)

/-- C9 as stated fails: the records are two declarations of `X` and one data byte, no
reference, so N = 1, and pass 1 ends at the second declaration with an error instead of
ending with the counter 0x101. -/
theorem counter_claim_fails_on_error :
    decodeFiles [[1, 88, 1, 1, 88, 1, 0, 5]]
        = ([.declaration [88], .declaration [88], .dataByte 5], .endOfInput) ∧
      countRef [.declaration [88], .declaration [88], .dataByte 5] = 0 ∧
      countData [.declaration [88], .declaration [88], .dataByte 5] = 1 ∧
      collect1 ([[1, 88, 1, 1, 88, 1, 0, 5]].map some) [sentinel]
        = .error (.duplicateSymbol [88]) :=
  ⟨by decide, by decide, by decide, rfl⟩

/-- C9 amended: for every input on which pass 1 succeeds and whose records, up to the
first EndOfModule, hold no reference and N data bytes, the address counter at the end of
pass 1 is 0x100 + N. -/
theorem counter_without_references (ss : List (List Nat)) (tbl : List Sym) (addr : Nat)
    (h : collect1 (ss.map some) [sentinel] = .ok (tbl, addr))
    (hno : countRef (decodeFiles ss).1 = 0) :
    addr = 0x100 + countData (decodeFiles ss).1 := by
  rw [(collect1_table ss tbl addr h).2.1, size_eq_count, hno]
  omega

/-- Witness of C9 amended: three data bytes in two files among markers, declarations
and an EndOfModule byte. -/
theorem counter_without_references_witness :
    0x103 = 0x100 + countData (decodeFiles [[3, 0, 7, 1, 88, 1], [0, 8, 0, 9, 26, 0]]).1 :=
  counter_without_references [[3, 0, 7, 1, 88, 1], [0, 8, 0, 9, 26, 0]]
    [sentinel, ⟨[88], 0x101⟩] 0x103 rfl (by decide)

/-- C10 as stated fails. A run that fails in the check of the endings returns 1 before
the output file is opened and unlinks nothing: an output file that was there before is
still there. And a run with an input name without a dot has no defined behaviour, so no
exit code at all. -/
theorem output_survives_failed_startup :
    (∃ disk2,
      main ⟨fun n => if n = "a.com" then some [1, 2, 3] else none, fun _ => true⟩
          ["l80", "a", "b.txt"] = .returned 1 (some .badEnding) disk2 ∧
        disk2.content "a.com" = some [1, 2, 3]) ∧
    main ⟨fun n => if n = "a.com" then some [1, 2, 3] else none, fun _ => true⟩
        ["l80", "a", "b"] = .undefined :=
  ⟨⟨_, rfl, rfl⟩, rfl⟩

/-- C10 amended: a run of `main` whose input names all hold a dot returns 0 or 1. When
it fails before the passes (argument count, endings, output name, opening the output
file), it returns 1 and leaves the files as they were. Once the output file is open:
if pass 1 fails, the run returns 1 with the diagnostic of pass 1 and the output file is
gone; if pass 1 succeeds, the run is decided by pass 2 on the collection of pass 1,
returning 1 with the output file gone when pass 2 fails, and 0 with the image of pass 2
in the output file when it succeeds. So the run returns 0 exactly when the start, pass 1
and pass 2 all succeed. -/
theorem main_outcome (disk : Disk) (argv : List String)
    (hdot : ∀ a ∈ argv.drop 2, '.' ∈ a.data) :
    ∃ code diag disk2, main disk argv = .returned code diag disk2 ∧
      (code = 0 ∨ code = 1) ∧
      (∀ e, startup disk argv = some (.error e) →
        code = 1 ∧ diag = some e ∧ disk2 = disk) ∧
      (∀ bin, startup disk argv = some (.ok bin) →
        (∀ e, collect1 ((argv.drop 2).map (disk.write bin []).content) [sentinel]
            = .error e →
          code = 1 ∧ diag = some e ∧ disk2.content bin = none) ∧
        (∀ tbl addr, collect1 ((argv.drop 2).map (disk.write bin []).content) [sentinel]
            = .ok (tbl, addr) →
          (∀ e, process2 ((argv.drop 2).map (disk.write bin []).content) tbl = .error e →
            code = 1 ∧ diag = some e ∧ disk2.content bin = none) ∧
          (∀ image,
            process2 ((argv.drop 2).map (disk.write bin []).content) tbl = .ok image →
            code = 0 ∧ diag = none ∧ disk2.content bin = some image))) ∧
      (code = 0 ↔ ∃ bin tbl addr image, startup disk argv = some (.ok bin) ∧
        collect1 ((argv.drop 2).map (disk.write bin []).content) [sentinel]
          = .ok (tbl, addr) ∧
        process2 ((argv.drop 2).map (disk.write bin []).content) tbl = .ok image) := by
  obtain ⟨r, hr⟩ := startup_defined disk argv hdot
  unfold main
  rw [hr]
  cases r with
  | error e =>
    refine ⟨1, some e, disk, rfl, Or.inr rfl, ?_, ?_, ?_⟩
    · intro e2 h
      simp only [Option.some.injEq, Except.error.injEq] at h
      exact ⟨rfl, by rw [h], rfl⟩
    · intro bin h
      simp at h
    · simp
  | ok bin =>
    simp only []
    cases hc : collect1 ((argv.drop 2).map (disk.write bin []).content) [sentinel] with
    | error e =>
      rw [collect1_error_link _ _ e hc]
      refine ⟨1, some e, (disk.write bin []).unlink bin, rfl, Or.inr rfl, ?_, ?_, ?_⟩
      · intro e2 h; simp at h
      · intro bin2 h
        simp only [Option.some.injEq, Except.ok.injEq] at h
        subst h
        rw [hc]
        refine ⟨?_, ?_⟩
        · intro e2 h2
          simp only [Except.error.injEq] at h2
          exact ⟨rfl, by rw [h2], by simp [Disk.unlink]⟩
        · intro tbl addr h2; simp at h2
      · simp only [one_ne_zero, false_iff, not_exists, not_and]
        intro bin2 tbl addr image h
        simp only [Option.some.injEq, Except.ok.injEq] at h
        subst h
        rw [hc]
        intro h2; simp at h2
    | ok st =>
      obtain ⟨tbl, addr⟩ := st
      rw [link_of_passes _ _ tbl addr hc]
      cases hp : process2 ((argv.drop 2).map (disk.write bin []).content) tbl with
      | error e =>
        refine ⟨1, some e, (disk.write bin []).unlink bin, rfl, Or.inr rfl, ?_, ?_, ?_⟩
        · intro e2 h; simp at h
        · intro bin2 h
          simp only [Option.some.injEq, Except.ok.injEq] at h
          subst h
          rw [hc]
          refine ⟨?_, ?_⟩
          · intro e2 h2; simp at h2
          · intro tbl2 addr2 h2
            simp only [Except.ok.injEq, Prod.mk.injEq] at h2
            obtain ⟨h3, _⟩ := h2
            subst h3
            rw [hp]
            refine ⟨?_, ?_⟩
            · intro e2 h4
              simp only [Except.error.injEq] at h4
              exact ⟨rfl, by rw [h4], by simp [Disk.unlink]⟩
            · intro image h4; simp at h4
        · simp only [one_ne_zero, false_iff, not_exists, not_and]
          intro bin2 tbl2 addr2 image h
          simp only [Option.some.injEq, Except.ok.injEq] at h
          subst h
          rw [hc]
          intro h2
          simp only [Except.ok.injEq, Prod.mk.injEq] at h2
          obtain ⟨h3, _⟩ := h2
          subst h3
          rw [hp]
          simp
      | ok image =>
        refine ⟨0, none, (disk.write bin []).write bin image, rfl, Or.inl rfl, ?_, ?_, ?_⟩
        · intro e2 h; simp at h
        · intro bin2 h
          simp only [Option.some.injEq, Except.ok.injEq] at h
          subst h
          rw [hc]
          refine ⟨?_, ?_⟩
          · intro e2 h2; simp at h2
          · intro tbl2 addr2 h2
            simp only [Except.ok.injEq, Prod.mk.injEq] at h2
            obtain ⟨h3, _⟩ := h2
            subst h3
            rw [hp]
            refine ⟨?_, ?_⟩
            · intro e2 h4; simp at h4
            · intro image2 h4
              simp only [Except.ok.injEq] at h4
              exact ⟨rfl, rfl, by simp [Disk.write, h4]⟩
        · simp only [true_iff]
          exact ⟨bin, tbl, addr, image, rfl, hc, hp⟩

/-- Witness of C10 amended: one input file `a.obj` with a data byte and an EndOfModule
byte, output name `out`. -/
theorem main_outcome_witness :
    (∀ a ∈ ["l80", "out", "a.obj"].drop 2, '.' ∈ a.data) ∧
    ∃ code diag disk2,
      main ⟨fun n => if n = "a.obj" then some [0, 5, 26] else none, fun _ => true⟩
          ["l80", "out", "a.obj"] = .returned code diag disk2 ∧
        (code = 0 ∨ code = 1) ∧
        (code = 0 ↔ ∃ bin tbl addr image,
          startup ⟨fun n => if n = "a.obj" then some [0, 5, 26] else none, fun _ => true⟩
              ["l80", "out", "a.obj"] = some (.ok bin) ∧
            collect1 ((["l80", "out", "a.obj"].drop 2).map
              (Disk.write ⟨fun n => if n = "a.obj" then some [0, 5, 26] else none,
                fun _ => true⟩ bin []).content) [sentinel] = .ok (tbl, addr) ∧
            process2 ((["l80", "out", "a.obj"].drop 2).map
              (Disk.write ⟨fun n => if n = "a.obj" then some [0, 5, 26] else none,
                fun _ => true⟩ bin []).content) tbl = .ok image) :=
  ⟨by decide,
    (main_outcome ⟨fun n => if n = "a.obj" then some [0, 5, 26] else none, fun _ => true⟩
      ["l80", "out", "a.obj"] (by decide)).imp fun _ h =>
        h.imp fun _ h => h.imp fun _ h => ⟨h.1, h.2.1, h.2.2.2.2⟩⟩

/-- C11 as stated fails: the endings `.Obj` and `.Lib` equal `.obj` and `.lib` up to the
case of their letters, and the check refuses them; `main` returns 1. -/
theorem mixed_case_ending_refused :
    strrchr "a.Obj".data '.' = some ".Obj".data ∧
    checkEndings ["a.Obj"] = some (.error .badEnding) ∧
    checkEndings ["a.Lib"] = some (.error .badEnding) ∧
    ∃ disk2, main ⟨fun _ => some [], fun _ => true⟩ ["l80", "out", "a.Obj"]
      = .returned 1 (some .badEnding) disk2 :=
  ⟨rfl, rfl, rfl, _, rfl⟩

/-- C11 amended: for an input name that holds a dot, `ext` being what follows its last
dot, the check of `main` accepts the name exactly when `ext` is one of `obj`, `OBJ`,
`lib`, `LIB` in exactly this spelling; with any other `ext` the check ends with the
diagnostic of the endings and, the names before it being accepted, `main` returns 1 and
leaves the files as they were. -/
theorem ending_check (name : String) (pre ext : List Char)
    (hname : name.data = pre ++ '.' :: ext) (hext : '.' ∉ ext) :
    (checkEndings [name] = some (.ok ()) ↔
      (ext = "obj".data ∨ ext = "OBJ".data ∨ ext = "lib".data ∨ ext = "LIB".data)) ∧
    (¬ (ext = "obj".data ∨ ext = "OBJ".data ∨ ext = "lib".data ∨ ext = "LIB".data) →
      checkEndings [name] = some (.error .badEnding) ∧
      ∀ (disk : Disk) (a0 base : String) (good rest : List String),
        checkEndings good = some (.ok ()) →
        main disk (a0 :: base :: (good ++ name :: rest))
          = .returned 1 (some .badEnding) disk) := by
  have hone := checkEndings_cons_dot name [] pre ext hname hext
  refine ⟨?_, ?_⟩
  · rw [hone]
    by_cases h : ext = "obj".data ∨ ext = "OBJ".data ∨ ext = "lib".data ∨ ext = "LIB".data
    · simp [h, checkEndings]
    · simp [h]
  · intro h
    refine ⟨by rw [hone, if_neg h], ?_⟩
    intro disk a0 base good rest hgood
    apply main_of_startup_error
    apply startup_of_bad_ending
    rw [checkEndings_append good _ hgood, checkEndings_cons_dot name rest pre ext hname hext,
      if_neg h]

/-- Witness of C11 amended: `lib.v2.LIB` is accepted, its last dot being the second
one; `a.txt` behind the accepted `b.obj` makes `main` return 1, and the name `c` behind
it is not looked at. -/
theorem ending_check_witness :
    checkEndings ["lib.v2.LIB"] = some (.ok ()) ∧
    checkEndings ["a.txt"] = some (.error .badEnding) ∧
    main ⟨fun _ => none, fun _ => true⟩ ("l80" :: "out" :: (["b.obj"] ++ "a.txt" :: ["c"]))
      = .returned 1 (some .badEnding) ⟨fun _ => none, fun _ => true⟩ :=
  ⟨(ending_check "lib.v2.LIB" "lib.v2".data "LIB".data rfl (by decide)).1.mpr (by decide),
    ((ending_check "a.txt" "a".data "txt".data rfl (by decide)).2 (by decide)).1,
    ((ending_check "a.txt" "a".data "txt".data rfl (by decide)).2 (by decide)).2
      ⟨fun _ => none, fun _ => true⟩ "l80" "out" ["b.obj"] ["c"] rfl⟩

/-- C12: with at least one input and accepted endings, for a base name of at most 8
characters the output file that `main` opens is named by the base name followed by
`.com`, a name of at most 12 characters; for a longer base name of any length `main`
returns 1 with the diagnostic of the output name and the files are as they were, the
output file not having been opened. -/
theorem output_name (disk : Disk) (argv : List String) (h3 : 3 ≤ argv.length)
    (hend : checkEndings (argv.drop 2) = some (.ok ())) :
    ((argv.getD 1 "").length ≤ 8 →
      outputName (argv.getD 1 "") = .ok (argv.getD 1 "" ++ ".com") ∧
      (argv.getD 1 "" ++ ".com").length ≤ 12 ∧
      startup disk argv =
        if disk.creatable (argv.getD 1 "" ++ ".com") = false
        then some (.error .couldNotOpenOutput)
        else some (.ok (argv.getD 1 "" ++ ".com"))) ∧
    (8 < (argv.getD 1 "").length →
      startup disk argv = some (.error .outputNameTooLong) ∧
      main disk argv = .returned 1 (some .outputNameTooLong) disk) := by
  constructor
  · intro h
    refine ⟨outputName_short _ h, ?_, ?_⟩
    · rw [String.length_append]
      have : ".com".length = 4 := rfl
      omega
    · simp only [startup, hend, outputName_short _ h]
      rw [if_neg (by omega)]
  · intro h
    have hs : startup disk argv = some (.error .outputNameTooLong) := by
      simp only [startup, hend, outputName_long _ h]
      rw [if_neg (by omega)]
    exact ⟨hs, main_of_startup_error disk argv _ hs⟩

/-- Witness of C12: the base names `program1` of 8 and `program12` of 9 characters. -/
theorem output_name_witness :
    (outputName "program1" = .ok ("program1" ++ ".com") ∧
      ("program1" ++ ".com").length ≤ 12 ∧
      startup ⟨fun _ => none, fun _ => true⟩ ["l80", "program1", "a.obj"]
        = some (.ok ("program1" ++ ".com"))) ∧
    (startup ⟨fun _ => none, fun _ => true⟩ ["l80", "program12", "a.obj"]
        = some (.error .outputNameTooLong) ∧
      main ⟨fun _ => none, fun _ => true⟩ ["l80", "program12", "a.obj"]
        = .returned 1 (some .outputNameTooLong) ⟨fun _ => none, fun _ => true⟩) :=
  ⟨(output_name ⟨fun _ => none, fun _ => true⟩ ["l80", "program1", "a.obj"] (by decide)
      rfl).1 (by decide),
    (output_name ⟨fun _ => none, fun _ => true⟩ ["l80", "program12", "a.obj"] (by decide)
      rfl).2 (by decide)⟩

/-- C13: when the decoding of the files in order, each from its start, ends before any
EndOfModule byte at a `0x00` without a following byte, at a declaration or reference
name without its closing byte, or at an unknown control byte, pass 1 returns an error
and the link fails, whatever files follow, readable or not; no output image is kept.
The diagnostic is that of the framing error unless a record before it made pass 1 fail
already. -/
theorem framing_error_fails (ss : List (List Nat)) (rest : List (Option (List Nat)))
    (hbad : (decodeFiles ss).2 ≠ .endOfInput ∧ (decodeFiles ss).2 ≠ .endOfModule) :
    ∃ e, collect1 (ss.map some) [sentinel] = .error e ∧
      collect1 (ss.map some ++ rest) [sentinel] = .error e ∧
      link (ss.map some ++ rest) [sentinel] = .error e ∧
      kept (link (ss.map some ++ rest) [sentinel]) = none ∧
      ((pass1Records (decodeFiles ss).1 .endOfInput [sentinel] 0x100).final ≠ none →
        ((decodeFiles ss).2 = .truncatedData → e = .invalidDataByte) ∧
        ((decodeFiles ss).2 = .unterminatedDeclaration → e = .unterminatedSymbol) ∧
        ((decodeFiles ss).2 = .unterminatedReference → e = .unterminatedSymbol) ∧
        (∀ ch, (decodeFiles ss).2 = .unknownControlByte ch → e = .unknownControlByte ch)) := by
  obtain ⟨e, he, hdiag⟩ :=
    pass1Records_framing (decodeFiles ss).1 (decodeFiles ss).2 hbad [sentinel] 0x100
  have h1 : collect1Files (ss.map some) [sentinel] 0x100 = .fail e := by
    rw [collect1Files_eq, he]
  have h2 : collect1Files (ss.map some ++ rest) [sentinel] 0x100 = .fail e := by
    rw [collect1Files_append, h1]
  have hc : collect1 (ss.map some ++ rest) [sentinel] = .error e := by
    simp [collect1, h2]
  refine ⟨e, by simp [collect1, h1], hc, collect1_error_link _ _ e hc, ?_, ?_⟩
  · rw [collect1_error_link _ _ e hc]; rfl
  · intro hne
    have hd := hdiag hne
    refine ⟨?_, ?_, ?_, ?_⟩
    · intro h; rw [h] at hd; simp only [pass1Records, Scan.fail.injEq] at hd; exact hd.symm
    · intro h; rw [h] at hd; simp only [pass1Records, Scan.fail.injEq] at hd; exact hd.symm
    · intro h; rw [h] at hd; simp only [pass1Records, Scan.fail.injEq] at hd; exact hd.symm
    · intro ch h; rw [h] at hd; simp only [pass1Records, Scan.fail.injEq] at hd
      exact hd.symm

/-- Witness of C13: the second file ends inside a reference name; the third file cannot
be opened and the fourth holds a duplicate declaration. -/
theorem framing_error_fails_witness :
    (decodeFiles [[0, 7, 1, 88, 1], [3, 2, 88]]).2 = .unterminatedReference ∧
    ∃ e, collect1 ([[0, 7, 1, 88, 1], [3, 2, 88]].map some) [sentinel] = .error e ∧
      collect1 ([[0, 7, 1, 88, 1], [3, 2, 88]].map some ++ [none, some [1, 88, 1]])
        [sentinel] = .error e ∧
      link ([[0, 7, 1, 88, 1], [3, 2, 88]].map some ++ [none, some [1, 88, 1]]) [sentinel]
        = .error e ∧
      kept (link ([[0, 7, 1, 88, 1], [3, 2, 88]].map some ++ [none, some [1, 88, 1]])
        [sentinel]) = none :=
  ⟨by decide, (framing_error_fails [[0, 7, 1, 88, 1], [3, 2, 88]] [none, some [1, 88, 1]]
    (by decide)).imp fun _ h => ⟨h.1, h.2.1, h.2.2.1, h.2.2.2.1⟩⟩

/-- C14 as stated fails: the declaration `01 00 41 01` has two bytes between its
delimiters and pass 1 rejects it with the empty-symbol diagnostic, the C string in the
name buffer ending at the NUL byte that comes first. -/
theorem nul_name_is_empty :
    decodeFiles [[1, 0, 65, 1]] = ([.declaration [0, 65]], .endOfInput) ∧
    collect1 ([[1, 0, 65, 1]].map some) [sentinel] = .error .emptySymbol :=
  ⟨by decide, rfl⟩

/-- C14 amended: a declaration is rejected with the empty-symbol diagnostic exactly when
the C string of its name is empty, that is when no byte stands between the two
delimiters or the first name byte is `0x00`; every other declaration passes the check
and goes on to the duplicate check. -/
theorem empty_symbol_check (name s : List Nat) (head : List Sym) (addr : Nat)
    (hname : 1 ∉ name) :
    (symbolOf name = [] ↔ name = [] ∨ ∃ t, name = 0 :: t) ∧
    collect1Ctl (1 :: (name ++ 1 :: s)) head addr =
      if symbolOf name = [] then .fail .emptySymbol
      else
        match lookup (symbolOf name) head with
        | some _ => .fail (.duplicateSymbol (symbolOf name))
        | none => collect1Ctl s (head ++ [⟨symbolOf name, addr⟩]) addr := by
  constructor
  · cases name with
    | nil => simp [symbolOf, cstr]
    | cons c t =>
      by_cases hc : c = 0
      · subst hc; simp [symbolOf, cstr]
      · simp [symbolOf, cstr, hc]
  · rw [collect1Ctl_eq, decodeCtl_declaration name s hname]
    simp only [Record.andThen, pass1Records, List.length_eq_zero]
    by_cases he : symbolOf name = []
    · rw [if_pos he, if_pos he]
    · rw [if_neg he, if_neg he]
      cases lookup (symbolOf name) head with
      | some e => rfl
      | none => simp only [collect1Ctl_eq]

/-- Witness of C14 amended: the declaration of `X` in front of a data byte, `X` being
new. -/
theorem empty_symbol_check_witness :
    (symbolOf [88] = [] ↔ [88] = [] ∨ ∃ t, [88] = 0 :: t) ∧
    collect1Ctl (1 :: ([88] ++ 1 :: [0, 7])) [sentinel] 0x100 =
      if symbolOf [88] = [] then .fail .emptySymbol
      else
        match lookup (symbolOf [88]) [sentinel] with
        | some _ => .fail (.duplicateSymbol (symbolOf [88]))
        | none => collect1Ctl [0, 7] ([sentinel] ++ [⟨symbolOf [88], 0x100⟩]) 0x100 :=
  empty_symbol_check [88] [0, 7] [sentinel] 0x100 (by decide)

/-- C15: for a byte list `bs` of at most 65,279 bytes, the stream that holds each byte
behind a `0x00` decodes to one DataByte record per byte, whatever the bytes are, and
links to exactly `bs`. -/
theorem data_bytes_pass_through (bs : List Nat) (hlen : bs.length ≤ 65279) :
    decodeFiles [encodeData bs] = (bs.map Record.dataByte, .endOfInput) ∧
    link [some (encodeData bs)] [sentinel] = .ok bs := by
  have hdec : decodeFiles [encodeData bs] = (bs.map Record.dataByte, .endOfInput) := by
    rw [decodeFiles_cons, decodeCtl_encodeData]
    simp [decodeFiles]
  refine ⟨hdec, ?_⟩
  have h1 := collect1Files_eq [encodeData bs] [sentinel] 0x100
  have h2 := process2Files_eq [sentinel] [encodeData bs] [] 0
  simp only [List.map_cons, List.map_nil] at h1 h2
  have hc : collect1 [some (encodeData bs)] [sentinel]
      = .ok ([sentinel], 0x100 + bs.length) := by
    rw [collect1, h1, hdec]
    simp only []
    rw [pass1Records_dataBytes [sentinel] bs 0x100 (by decide),
      if_pos (by unfold USHRT_MAX; omega)]
  have hp : process2 [some (encodeData bs)] [sentinel] = .ok bs := by
    rw [process2, h2, hdec]
    simp only []
    rw [pass2Records_dataBytes [sentinel] bs [] 0 (by decide),
      if_pos (by unfold BIN_MAX; omega)]
    simp
  rw [link_of_passes _ _ _ _ hc, hp]

/-- Witness of C15: the five control byte values as payloads. -/
theorem data_bytes_pass_through_witness :
    decodeFiles [encodeData [0x00, 0x01, 0x02, 0x03, 0x1A]]
        = ([0x00, 0x01, 0x02, 0x03, 0x1A].map Record.dataByte, .endOfInput) ∧
    link [some (encodeData [0x00, 0x01, 0x02, 0x03, 0x1A])] [sentinel]
      = .ok [0x00, 0x01, 0x02, 0x03, 0x1A] :=
  data_bytes_pass_through [0x00, 0x01, 0x02, 0x03, 0x1A] (by decide)

/-- C16: the invariant of the collection. It starts as the single entry "@" with
address 0, which is what pass 1 returns on no input. From every state with distinct
names and a counter between 0x100 and 0xFFFF, a run of pass 1 over any files that ends
without an error returns the same entries followed by new ones, with distinct names,
each new entry having a name of 1 to 15 bytes and an address between 0x100 and 0xFFFF.
A declaration that passes its checks adds exactly one entry at the end; a data byte, a
reference and a marker leave the collection as it is. Pass 2 takes the collection as an
argument that it only reads. -/
theorem table_invariant :
    (sentinel = ⟨[64], 0⟩ ∧ collect1 [] [sentinel] = .ok ([sentinel], 0x100)) ∧
    (∀ (files : List (Option (List Nat))) (head : List Sym) (addr : Nat)
      (st : List Sym × Nat), (head.map Sym.symbol).Nodup →
      (0x100 ≤ addr ∧ addr ≤ 0xFFFF) →
      (collect1Files files head addr).final = some st →
      ∃ new, st.1 = head ++ new ∧ (st.1.map Sym.symbol).Nodup ∧
        (∀ e ∈ new,
          e.symbol ≠ [] ∧ e.symbol.length ≤ 15 ∧ 0x100 ≤ e.addr ∧ e.addr ≤ 0xFFFF) ∧
        0x100 ≤ st.2 ∧ st.2 ≤ 0xFFFF) ∧
    (∀ (name s : List Nat) (head : List Sym) (addr : Nat), 1 ∉ name →
      symbolOf name ≠ [] → lookup (symbolOf name) head = none →
      collect1Ctl (1 :: (name ++ 1 :: s)) head addr
        = collect1Ctl s (head ++ [⟨symbolOf name, addr⟩]) addr) ∧
    (∀ (b : Nat) (s : List Nat) (head : List Sym) (addr : Nat), addr + 1 ≤ 0xFFFF →
      collect1Ctl (0 :: b :: s) head addr = collect1Ctl s head (addr + 1)) ∧
    (∀ (name s : List Nat) (head : List Sym) (addr : Nat), 2 ∉ name → addr + 2 ≤ 0xFFFF →
      collect1Ctl (2 :: (name ++ 2 :: s)) head addr = collect1Ctl s head (addr + 2)) ∧
    (∀ (s : List Nat) (head : List Sym) (addr : Nat),
      collect1Ctl (3 :: s) head addr = collect1Ctl s head addr) := by
  refine ⟨⟨rfl, rfl⟩, collect1Files_invariant, ?_, ?_, ?_, ?_⟩
  · intro name s head addr hname hne hl
    rw [collect1Ctl_eq, decodeCtl_declaration name s hname]
    simp only [Record.andThen, pass1Records, List.length_eq_zero, if_neg hne, hl,
      collect1Ctl_eq]
  · intro b s head addr ha
    rw [collect1Ctl_eq, decodeCtl_cons, if_pos rfl]
    simp only [Record.andThen, pass1Records]
    rw [if_neg (by unfold USHRT_MAX; omega), collect1Ctl_eq]
  · intro name s head addr hname ha
    rw [collect1Ctl_eq, decodeCtl_reference name s hname]
    simp only [Record.andThen, pass1Records]
    rw [if_neg (by unfold USHRT_MAX; omega), collect1Ctl_eq]
  · intro s head addr
    rw [collect1Ctl_eq, decodeCtl_cons]
    simp only [Record.andThen, pass1Records, OfNat.ofNat_ne_zero, OfNat.ofNat_ne_one,
      if_false, if_true]
    simp [collect1Ctl_eq]

/-- Witness of C16: pass 1 over two files and a third that stops at an EndOfModule
byte, from the preloaded collection. -/
theorem table_invariant_witness :
    ∃ new, ([sentinel, ⟨[88], 0x101⟩, ⟨[89], 0x103⟩], 0x104).1 = [sentinel] ++ new ∧
      ((([sentinel, ⟨[88], 0x101⟩, ⟨[89], 0x103⟩], 0x104) : List Sym × Nat).1.map
        Sym.symbol).Nodup ∧
      (∀ e ∈ new,
        e.symbol ≠ [] ∧ e.symbol.length ≤ 15 ∧ 0x100 ≤ e.addr ∧ e.addr ≤ 0xFFFF) ∧
      0x100 ≤ (([sentinel, ⟨[88], 0x101⟩, ⟨[89], 0x103⟩], 0x104) : List Sym × Nat).2 ∧
      (([sentinel, ⟨[88], 0x101⟩, ⟨[89], 0x103⟩], 0x104) : List Sym × Nat).2 ≤ 0xFFFF :=
  table_invariant.2.1 [some [0, 7, 1, 88, 1], some [2, 88, 2, 1, 89, 1], some [0, 9, 26, 5]]
    [sentinel] 0x100 ([sentinel, ⟨[88], 0x101⟩, ⟨[89], 0x103⟩], 0x104) (by decide)
    (by decide) rfl

/-- C17: the preloaded entry takes part in the duplicate check and in the lookup. A
declaration whose symbol is "@", read with a collection that starts with the preloaded
entry, ends pass 1 with the duplicate-symbol diagnostic: so does the single declaration
`01 40 01`. After every pass 1 that succeeds, a reference whose symbol is "@" finds the
preloaded entry and contributes 00 00: the single reference `02 40 02` links to
00 00. -/
theorem sentinel_is_a_symbol :
    (∀ (name s : List Nat) (tail : List Sym) (addr : Nat), 1 ∉ name →
      symbolOf name = sentinel.symbol →
      collect1Ctl (1 :: (name ++ 1 :: s)) (sentinel :: tail) addr
        = .fail (.duplicateSymbol sentinel.symbol)) ∧
    collect1 [some [1, 64, 1]] [sentinel] = .error (.duplicateSymbol [64]) ∧
    (∀ (ss : List (List Nat)) (tbl : List Sym) (addr : Nat) (name : List Nat),
      collect1 (ss.map some) [sentinel] = .ok (tbl, addr) →
      symbolOf name = sentinel.symbol →
      lookup (symbolOf name) tbl = some sentinel ∧
      contribution tbl (.reference name) = some [0, 0]) ∧
    link [some [2, 64, 2]] [sentinel] = .ok [0, 0] := by
  refine ⟨?_, rfl, ?_, rfl⟩
  · intro name s tail addr hname hsym
    rw [collect1Ctl_eq, decodeCtl_declaration name s hname]
    simp only [Record.andThen, pass1Records, hsym]
    rw [if_neg (by decide)]
    simp [lookup]
  · intro ss tbl addr name h hsym
    have ht := (collect1_table ss tbl addr h).1
    have hl : lookup (symbolOf name) tbl = some sentinel := by
      rw [ht, hsym]; simp [lookup]
    exact ⟨hl, by simp only [contribution, hl]; rfl⟩

/-- Witness of C17: `@` followed by a NUL byte and more is declared behind a declaration
of `X`; and `@` is referred to in a link that declares `X`. -/
theorem sentinel_is_a_symbol_witness :
    collect1Ctl (1 :: ([64, 0, 65] ++ 1 :: [0, 7])) (sentinel :: [⟨[88], 0x100⟩]) 0x100
        = .fail (.duplicateSymbol sentinel.symbol) ∧
    (lookup (symbolOf [64]) [sentinel, ⟨[88], 0x100⟩] = some sentinel ∧
      contribution [sentinel, ⟨[88], 0x100⟩] (.reference [64]) = some [0, 0]) :=
  ⟨sentinel_is_a_symbol.1 [64, 0, 65] [0, 7] [⟨[88], 0x100⟩] 0x100 (by decide) (by decide),
    sentinel_is_a_symbol.2.2.1 [[1, 88, 1, 2, 64, 2]] [sentinel, ⟨[88], 0x100⟩] 0x102
      [64] rfl (by decide)⟩

/-- C18, on the code: for an input name without a dot that comes behind accepted names,
`strrchr` returns the NULL pointer and the check passes it to `strcmp`: the run has no
defined behaviour, it does not return 1 with the diagnostic of the endings. -/
theorem name_without_dot_undefined (disk : Disk) (a0 base name : String)
    (good rest : List String) (hgood : checkEndings good = some (.ok ()))
    (hname : '.' ∉ name.data) :
    strrchr name.data '.' = none ∧ checkEndings (good ++ name :: rest) = none ∧
      main disk (a0 :: base :: (good ++ name :: rest)) = .undefined := by
  have hs := strrchr_none '.' name.data hname
  have hc : checkEndings (good ++ name :: rest) = none := by
    rw [checkEndings_append good _ hgood]
    simp [checkEndings, hs]
  refine ⟨hs, hc, ?_⟩
  have hst : startup disk (a0 :: base :: (good ++ name :: rest)) = none := by
    simp only [startup, List.length_cons, List.length_append, List.drop_succ_cons,
      List.drop_zero, hc]
    rw [if_neg (by omega)]
  simp [main, hst]

/-- Witness of C18 on the code: the input name `README` behind `a.obj`. -/
theorem name_without_dot_undefined_witness :
    strrchr "README".data '.' = none ∧ checkEndings (["a.obj"] ++ "README" :: []) = none ∧
      main ⟨fun _ => none, fun _ => true⟩ ("l80" :: "out" :: (["a.obj"] ++ "README" :: []))
        = .undefined :=
  name_without_dot_undefined ⟨fun _ => none, fun _ => true⟩ "l80" "out" "README" ["a.obj"] []
    rfl (by decide)

/-- C19: on streams on which pass 1 succeeds, pass 2 goes through the same decoded
records as pass 1 and either returns 0 with an image of exactly the final counter of
pass 1 minus 0x100 bytes, at most 65,279, or returns the undefined-reference diagnostic
for a reference whose symbol is not in the collection; no other diagnostic of pass 2
can come up. -/
theorem pass2_after_pass1 (ss : List (List Nat)) (tbl : List Sym) (addr : Nat)
    (h : collect1 (ss.map some) [sentinel] = .ok (tbl, addr)) :
    (collect1Files (ss.map some) [sentinel] 0x100
        = pass1Records (decodeFiles ss).1 (decodeFiles ss).2 [sentinel] 0x100 ∧
      process2Files tbl (ss.map some) [] 0
        = pass2Records tbl (decodeFiles ss).1 (decodeFiles ss).2 [] 0) ∧
    ((∃ image, process2 (ss.map some) tbl = .ok image ∧
        image.length = addr - 0x100 ∧ image.length ≤ 65279) ∨
      (∃ name, Record.reference name ∈ (decodeFiles ss).1 ∧
        lookup (symbolOf name) tbl = none ∧
        process2 (ss.map some) tbl = .error (.undefinedReference (symbolOf name)))) := by
  refine ⟨⟨collect1Files_eq ss _ _, process2Files_eq tbl ss _ _⟩, ?_⟩
  obtain ⟨_, h2, h3, _, h5⟩ := collect1_table ss tbl addr h
  have hstop := pass1Records_good_stop _ _ _ _ _ (collect1_ok ss _ _ _ h)
  have hsize : 0 + size (decodeFiles ss).1 ≤ BIN_MAX := by
    unfold USHRT_MAX at h3; unfold BIN_MAX; omega
  rcases pass2Records_cases tbl _ _ hstop [] 0 hsize with ⟨st, hst⟩ | ⟨name, h6, h7, h8⟩
  · left
    obtain ⟨image, hi1, hi2, _⟩ := pass2Records_final tbl h5 _ _ _ _ _ hst
    have hlen := imageOf_length tbl _ image hi1
    simp only [List.nil_append] at hi2
    refine ⟨image, ?_, by omega, by unfold USHRT_MAX at h3; omega⟩
    unfold process2
    rw [process2Files_eq]
    cases hp : pass2Records tbl (decodeFiles ss).1 (decodeFiles ss).2 [] 0 with
    | eof st2 => simp [hp, Scan.final] at hst; simp [hst, hi2]
    | stop st2 => simp [hp, Scan.final] at hst; simp [hst, hi2]
    | fail e => simp [hp, Scan.final] at hst
  · right
    refine ⟨name, h6, h7, ?_⟩
    unfold process2
    rw [process2Files_eq, h8]

/-- Witness of C19: two files in which `X` is declared and `Y` is referred to. -/
theorem pass2_after_pass1_witness :
    (∃ image, process2 ([[0, 7, 1, 88, 1], [2, 89, 2, 0, 9]].map some)
          [sentinel, ⟨[88], 0x101⟩] = .ok image ∧
        image.length = 0x104 - 0x100 ∧ image.length ≤ 65279) ∨
      (∃ name, Record.reference name ∈ (decodeFiles [[0, 7, 1, 88, 1], [2, 89, 2, 0, 9]]).1 ∧
        lookup (symbolOf name) [sentinel, ⟨[88], 0x101⟩] = none ∧
        process2 ([[0, 7, 1, 88, 1], [2, 89, 2, 0, 9]].map some) [sentinel, ⟨[88], 0x101⟩]
          = .error (.undefinedReference (symbolOf name))) :=
  (pass2_after_pass1 [[0, 7, 1, 88, 1], [2, 89, 2, 0, 9]] [sentinel, ⟨[88], 0x101⟩] 0x104
    rfl).2

/-- C20: names act through their effective name, the first 15 bytes cut at the first
`0x00`. In the collection of a pass 1 that succeeded, the name of a reference finds the
entry of a declaration exactly when the two effective names are equal, and pass 2 uses
a reference name only for the lookup of its effective name. The second of two new
declarations is a duplicate exactly when the two effective names are equal. So names
that agree on their first 15 bytes, or up to a `0x00` byte, stand for the same symbol,
and a declaration whose first name byte is `0x00` has an empty effective name and is
rejected as empty. -/
theorem effective_names :
    (∀ name : List Nat, symbolOf name = (name.take 15).takeWhile (fun c => c != 0)) ∧
    (∀ (ss : List (List Nat)) (tbl : List Sym) (addr : Nat) (pre post : List Record)
      (n m : List Nat), collect1 (ss.map some) [sentinel] = .ok (tbl, addr) →
      (decodeFiles ss).1 = pre ++ Record.declaration n :: post →
      (lookup (symbolOf m) tbl = some ⟨symbolOf n, 0x100 + size pre⟩ ↔
        symbolOf m = symbolOf n)) ∧
    (∀ (tbl : List Sym) (m s fq : List Nat) (bin : Nat), 2 ∉ m →
      process2Ctl tbl (2 :: (m ++ 2 :: s)) fq bin =
        match lookup (symbolOf m) tbl with
        | none => .fail (.undefinedReference (symbolOf m))
        | some curr =>
          if bin = BIN_MAX then .fail .binaryTooLarge
          else if bin + 1 = BIN_MAX then .fail .binaryTooLarge
          else process2Ctl tbl s
            (fq ++ [curr.addr &&& 0xff, (curr.addr >>> 8) &&& 0xff]) (bin + 2)) ∧
    (∀ (n m s : List Nat) (head : List Sym) (addr : Nat), 1 ∉ n → 1 ∉ m →
      symbolOf n ≠ [] → symbolOf m ≠ [] →
      lookup (symbolOf n) head = none → lookup (symbolOf m) head = none →
      collect1Ctl (1 :: (n ++ 1 :: 1 :: (m ++ 1 :: s))) head addr =
        if symbolOf m = symbolOf n then .fail (.duplicateSymbol (symbolOf m))
        else collect1Ctl s (head ++ [⟨symbolOf n, addr⟩] ++ [⟨symbolOf m, addr⟩]) addr) ∧
    (∀ n m : List Nat, n.take 15 = m.take 15 → symbolOf n = symbolOf m) ∧
    (∀ p x y : List Nat, symbolOf (p ++ 0 :: x) = symbolOf (p ++ 0 :: y)) ∧
    (∀ (t s : List Nat) (head : List Sym) (addr : Nat), 1 ∉ t →
      symbolOf (0 :: t) = [] ∧
      collect1Ctl (1 :: ((0 :: t) ++ 1 :: s)) head addr = .fail .emptySymbol) := by
  refine ⟨fun _ => rfl, ?_, process2Ctl_reference, ?_, ?_, ?_, ?_⟩
  · intro ss tbl addr pre post n m h hrs
    have hl := lookup_declared ss tbl addr h pre post n hrs
    constructor
    · intro hm
      exact ((lookup_some _ _ _ hm).2).symm
    · intro hm
      rw [hm]; exact hl
  · intro n m s head addr hn hm hne hme hln hlm
    rw [collect1Ctl_declaration n _ head addr hn, if_neg hne, hln]
    simp only []
    rw [collect1Ctl_declaration m s _ addr hm, if_neg hme,
      lookup_append_new _ head _ hlm]
    by_cases heq : symbolOf m = symbolOf n
    · simp [heq]
    · simp [heq]
  · intro n m h
    unfold symbolOf; rw [h]
  · intro p x y
    rw [symbolOf_append_nul, symbolOf_append_nul]
  · intro t s head addr ht
    have he : symbolOf (0 :: t) = [] := by simp [symbolOf, cstr]
    refine ⟨he, ?_⟩
    have h1 : (1 : Nat) ∉ 0 :: t := by
      simp only [List.mem_cons, not_or]
      exact ⟨by decide, ht⟩
    rw [collect1Ctl_declaration (0 :: t) s head addr h1, if_pos he]

/-- Witness of C20: `ABC` is declared; the names `ABC` followed by a NUL byte and `Z`
find its entry, the name `ABD` does not; and a second declaration under the name `ABC`
followed by a NUL byte is a duplicate. -/
theorem effective_names_witness :
    (lookup (symbolOf [65, 66, 67, 0, 90]) [sentinel, ⟨[65, 66, 67], 0x101⟩]
        = some ⟨symbolOf [65, 66, 67], 0x100 + size [.dataByte 7]⟩ ↔
      symbolOf [65, 66, 67, 0, 90] = symbolOf [65, 66, 67]) ∧
    (lookup (symbolOf [65, 66, 68]) [sentinel, ⟨[65, 66, 67], 0x101⟩]
        = some ⟨symbolOf [65, 66, 67], 0x100 + size [.dataByte 7]⟩ ↔
      symbolOf [65, 66, 68] = symbolOf [65, 66, 67]) ∧
    collect1Ctl (1 :: ([65, 66, 67] ++ 1 :: 1 :: ([65, 66, 67, 0] ++ 1 :: [0, 7])))
        [sentinel] 0x100 =
      if symbolOf [65, 66, 67, 0] = symbolOf [65, 66, 67]
      then .fail (.duplicateSymbol (symbolOf [65, 66, 67, 0]))
      else collect1Ctl [0, 7] ([sentinel] ++ [⟨symbolOf [65, 66, 67], 0x100⟩]
        ++ [⟨symbolOf [65, 66, 67, 0], 0x100⟩]) 0x100 :=
  ⟨effective_names.2.1 [[0, 7, 1, 65, 66, 67, 1]] [sentinel, ⟨[65, 66, 67], 0x101⟩] 0x101
      [.dataByte 7] [] [65, 66, 67] [65, 66, 67, 0, 90] rfl rfl,
    effective_names.2.1 [[0, 7, 1, 65, 66, 67, 1]] [sentinel, ⟨[65, 66, 67], 0x101⟩] 0x101
      [.dataByte 7] [] [65, 66, 67] [65, 66, 68] rfl rfl,
    effective_names.2.2.2.1 [65, 66, 67] [65, 66, 67, 0] [0, 7] [sentinel] 0x100
      (by decide) (by decide) (by decide) (by decide) (by decide) (by decide)⟩

end L80
